import Mathlib

/-!
Verification of the resource-normalisation and seed-reconciliation engine of the
asm-cloud-connector repository (internal/connector/service.go).

The Go functions `dedup`, `normalise`, `normaliseResource`, `getResourceType`,
`getErrorCode` and `SyncResources` are embedded as executable Lean definitions.
Calls into the Go standard library (strings, net/url, net.ParseIP, encoding/json)
and into golang.org/x/net/idna are modelled by definitions translated from those
libraries, restricted to ASCII character data where noted; each such definition
carries a doc comment naming the library code it models and any restriction.
-/

namespace ASMConnector

/-! ## Character helpers -/

/-- ASCII decimal digit (byte comparison, as Go code compares bytes). -/
def isDigit (c : Char) : Bool := 48 ≤ c.toNat ∧ c.toNat ≤ 57

/-- ASCII lowercase letter. -/
def isLower (c : Char) : Bool := 97 ≤ c.toNat ∧ c.toNat ≤ 122

/-- ASCII uppercase letter. -/
def isUpper (c : Char) : Bool := 65 ≤ c.toNat ∧ c.toNat ≤ 90

/-- ASCII letter. -/
def isAlpha (c : Char) : Bool := isLower c ∨ isUpper c

/-- Value of a hexadecimal digit, case-insensitive, as in Go's netip group parsing. -/
def hexVal (c : Char) : Option Nat :=
  if isDigit c then some (c.toNat - 48)
  else if 97 ≤ c.toNat ∧ c.toNat ≤ 102 then some (c.toNat - 97 + 10)
  else if 65 ≤ c.toNat ∧ c.toNat ≤ 70 then some (c.toNat - 65 + 10)
  else none

/-- Decimal digit value. -/
def digVal (c : Char) : Option Nat :=
  if isDigit c then some (c.toNat - 48) else none

/-- Character for a digit value below 10. -/
def decDigit (n : Nat) : Char := Char.ofNat (48 + n)

/-- Character for a hex digit value below 16, lowercase as produced by Go's appendHex. -/
def hexDigit (n : Nat) : Char := if n < 10 then Char.ofNat (48 + n) else Char.ofNat (87 + n)

/-- Models Go unicode.IsSpace (the White_Space property), used by strings.TrimSpace. -/
def isGoSpace (c : Char) : Bool :=
  c = ' ' ∨ c = '\t' ∨ c = '\n' ∨ c.toNat = 11 ∨ c.toNat = 12 ∨ c = '\r' ∨
  c.toNat = 0x85 ∨ c.toNat = 0xA0 ∨ c.toNat = 0x1680 ∨
  (0x2000 ≤ c.toNat ∧ c.toNat ≤ 0x200A) ∨ c.toNat = 0x2028 ∨ c.toNat = 0x2029 ∨
  c.toNat = 0x202F ∨ c.toNat = 0x205F ∨ c.toNat = 0x3000

/-- Models strings.ToLower restricted to ASCII letters. Go also lowercases
non-ASCII letters; non-ASCII characters are left unchanged here, which only
narrows the set of inputs this development covers (such characters are rejected
by the ASCII-restricted IDNA model below in any case). -/
def goToLowerChar (c : Char) : Char :=
  if isUpper c then Char.ofNat (c.toNat + 32) else c

/-! ## List-of-characters helpers -/

/-- listStartsWith p l is true when p is an initial segment of l. -/
def listStartsWith : List Char → List Char → Bool
  | [], _ => true
  | _ :: _, [] => false
  | p :: ps, c :: cs => p = c ∧ listStartsWith ps cs

/-- Split before the first occurrence of c: returns the part before and the part
after (the separator removed); when c does not occur, the second part is empty
and the flag is false. Models net/url's split(s, c, true). -/
def cutAtChar (c : Char) : List Char → List Char × List Char × Bool
  | [] => ([], [], false)
  | x :: xs =>
    if x = c then ([], xs, true)
    else
      let r := cutAtChar c xs
      (x :: r.1, r.2.1, r.2.2)

/-- Index of the last occurrence of c, if any (strings.LastIndex on a single char). -/
def lastIdx (c : Char) (cs : List Char) : Option Nat :=
  (List.range cs.length).foldl
    (fun acc i => if cs.get? i = some c then some i else acc) none

/-- Split a character list on a separator character into parts ('.'-labels etc). -/
def splitOnChar (c : Char) : List Char → List (List Char)
  | [] => [[]]
  | x :: xs =>
    let r := splitOnChar c xs
    if x = c then [] :: r
    else match r with
      | [] => [[x]]
      | h :: t => (x :: h) :: t

/-- Rejoin the parts produced by splitOnChar with the separator. -/
def joinWith (c : Char) : List (List Char) → List Char
  | [] => []
  | [p] => p
  | p :: ps => p ++ c :: joinWith c ps

/-! ## dedup (service.go)

Go source:
```
func dedup(ctx context.Context, resources []string) []string {
    if len(resources) < 2 { return resources }
    seen := make(map[string]struct{}, len(resources))
    writeIdx := 0
    for _, res := range resources {
        if _, exists := seen[res]; exists { continue }
        seen[res] = struct{}{}
        resources[writeIdx] = res
        writeIdx++
    }
    return resources[:writeIdx]
}
```
The in-place compaction keeps the first occurrence of each string in order;
the seen-map is modelled by an accumulator list. -/

/-- Loop of dedup: seen holds the strings already kept. -/
def dedupCore (seen : List String) : List String → List String
  | [] => []
  | r :: rest =>
    if r ∈ seen then dedupCore seen rest
    else r :: dedupCore (r :: seen) rest

/-- dedup from service.go: inputs of length below two are returned unchanged,
otherwise first occurrences are kept in order. -/
def dedup (resources : List String) : List String :=
  if resources.length < 2 then resources else dedupCore [] resources

/-- Specification-side definition (spec section 4.2): keep an item when it has
not been seen among the already-kept items, preserving first-occurrence order.
Written independently of dedup, as a left fold over the output built so far. -/
def firstOccurrences (xs : List String) : List String :=
  xs.foldl (fun acc a => if a ∈ acc then acc else acc ++ [a]) []

/-! ## IP addresses

net.ParseIP delegates to netip.ParseAddr and rejects addresses carrying a zone.
An address is modelled as its eight 16-bit groups (list of Nat, length 8, each
below 0x10000); Go's 16-byte representation pairs bytes into these groups, and
an IPv4 address a.b.c.d is the IPv4-mapped form with groups
[0,0,0,0,0,0xffff,a*256+b,c*256+d], exactly as net.ParseIP stores it. -/

/-- Models IP.To4() returning non-nil: bytes 0..9 zero and bytes 10,11 = 0xff. -/
def ipTo4 (g : List Nat) : Bool :=
  g.take 5 = [0, 0, 0, 0, 0] ∧ g.get? 5 = some 0xffff

/-- One dotted-decimal octet as parsed by netip's parseIPv4Fields: nonempty, all
digits, no leading zero, value at most 255. -/
def octetVal (p : List Char) : Option Nat :=
  match p with
  | [] => none
  | c :: rest =>
    if p.length > 1 ∧ c = '0' then none
    else
      let rec go : List Char → Nat → Option Nat
        | [], acc => some acc
        | d :: ds, acc =>
          match digVal d with
          | none => none
          | some v => let acc' := acc * 10 + v
                      if acc' > 255 then none else go ds acc'
      go (c :: rest) 0

/-- Models netip.parseIPv4 (reached by net.ParseIP when the first '.' or ':' in
the string is a '.'): exactly four octets separated by dots, each per octetVal.
Returns the four byte values. -/
def parseIPv4Bytes (cs : List Char) : Option (Nat × Nat × Nat × Nat) :=
  match (splitOnChar '.' cs).mapM octetVal with
  | some [a, b, c, d] => some (a, b, c, d)
  | _ => none

/-- Post-processing of netip.parseIPv6 after the main loop: with eight groups an
ellipsis is an error (":: must expand to at least one field"), with fewer an
ellipsis is required and the groups after it are shifted to the end with zeros
in between. -/
def postV6 (groups : List Nat) (ell : Option Nat) : Option (List Nat) :=
  if groups.length = 8 then
    match ell with
    | some _ => none
    | none => some groups
  else
    match ell with
    | none => none
    | some e => some (groups.take e ++ List.replicate (8 - groups.length) 0 ++ groups.drop e)

/-- Main loop of netip.parseIPv6 as a character-level machine. curr and nd are
the value and digit count of the group being read, gchars its raw characters
(needed because an embedded IPv4 part is re-parsed from the start of the current
group), groups the completed groups, ell the group index just after the "::" if
one was seen. Faithful to the Go loop: a group is 1+ hex digits with value at
most 0xffff; groups are separated by ':'; "::" is allowed once; an embedded
dotted IPv4 may replace the final two groups; a ninth group, trailing ':' or
unexpected character is an error. The Go loop tests for hex digits before
separators; since ':' is not a hex digit or a dot, the colon cases are split
into top-level patterns here, which changes nothing observable. -/
def parseV6 : List Char → Nat → Nat → List Char → List Nat → Option Nat →
    Option (List Nat × Option Nat)
  | [], curr, nd, _, groups, ell =>
    if nd = 0 then none else some (groups ++ [curr], ell)
  | [':'], _, _, _, _, _ => none
  | ':' :: ':' :: rest2, curr, nd, _, groups, ell =>
    if nd = 0 then none
    else if ell.isSome then none
    else
      let groups' := groups ++ [curr]
      if rest2 = [] then some (groups', some groups'.length)
      else if groups'.length ≥ 8 then none
      else parseV6 rest2 0 0 [] groups' (some groups'.length)
  | ':' :: c2 :: rest2, curr, nd, _, groups, ell =>
    if nd = 0 then none
    else
      let groups' := groups ++ [curr]
      if groups'.length ≥ 8 then none
      else parseV6 (c2 :: rest2) 0 0 [] groups' ell
  | c :: rest, curr, nd, gchars, groups, ell =>
    match hexVal c with
    | some v =>
      let acc := curr * 16 + v
      if acc > 0xffff then none
      else parseV6 rest acc (nd + 1) (gchars ++ [c]) groups ell
    | none =>
      if c = '.' then
        if nd = 0 then none
        else if ell.isNone ∧ groups.length ≠ 6 then none
        else if groups.length > 6 then none
        else
          match parseIPv4Bytes (gchars ++ c :: rest) with
          | none => none
          | some (a, b, cc, d) => some (groups ++ [a * 256 + b, cc * 256 + d], ell)
      else none

/-- Models netip.parseIPv6 (reached by net.ParseIP when the first '.' or ':' is
a ':'): a leading "::" sets the ellipsis at group 0 ("::" alone is the zero
address), then the main loop runs and postV6 expands the ellipsis. Zones are
handled one level up (any '%' makes net.ParseIP fail). -/
def parseIPv6 (cs : List Char) : Option (List Nat) :=
  match cs with
  | ':' :: ':' :: rest =>
    if rest = [] then some (List.replicate 8 0)
    else match parseV6 rest 0 0 [] [] (some 0) with
      | none => none
      | some (groups, ell) => postV6 groups ell
  | _ =>
    match parseV6 cs 0 0 [] [] none with
    | none => none
    | some (groups, ell) => postV6 groups ell

/-- First '.' or ':' in the string, which netip.ParseAddr uses to choose the
IPv4 or IPv6 parser. -/
def firstSpecial : List Char → Option Char
  | [] => none
  | c :: rest => if c = '.' ∨ c = ':' then some c else firstSpecial rest

/-- Models net.ParseIP: netip.ParseAddr dispatched on the first '.' or ':',
with every address carrying a zone rejected. A '%' anywhere makes the result
nil: before any '.' or ':' it is a ParseAddr error, inside an IPv4 string an
unexpected character, and inside an IPv6 string it starts a zone (empty zones
are parse errors and net.ParseIP rejects nonempty ones). -/
def parseIP (s : String) : Option (List Nat) :=
  if s.data.contains '%' then none
  else
    match firstSpecial s.data with
    | some '.' =>
      (parseIPv4Bytes s.data).map fun (a, b, c, d) =>
        [0, 0, 0, 0, 0, 0xffff, a * 256 + b, c * 256 + d]
    | some ':' => parseIPv6 s.data
    | _ => none

/-- Digit extraction with explicit fuel, so that the kernel can evaluate it;
the fuel argument only needs to be at least n. -/
def decCoreAux : Nat → Nat → List Char
  | 0, _ => []
  | fuel + 1, n => if n = 0 then [] else decCoreAux fuel (n / 10) ++ [decDigit (n % 10)]

/-- Decimal digits of n, most significant first (empty for 0). -/
def decCore (n : Nat) : List Char := decCoreAux n n

/-- Decimal representation of n as Go's itoa produces for IP octets. -/
def decChars (n : Nat) : List Char := if n = 0 then ['0'] else decCore n

/-- Hex digit extraction with explicit fuel. -/
def hexCoreAux : Nat → Nat → List Char
  | 0, _ => []
  | fuel + 1, n => if n = 0 then [] else hexCoreAux fuel (n / 16) ++ [hexDigit (n % 16)]

/-- Hex digits of n, most significant first (empty for 0). -/
def hexCore (n : Nat) : List Char := hexCoreAux n n

/-- Lowercase minimal hex representation of a group, as Go's appendHex. -/
def hexChars (n : Nat) : List Char := if n = 0 then ['0'] else hexCore n

/-- Length of the initial run of zero groups. -/
def runLen : List Nat → Nat
  | 0 :: t => runLen t + 1
  | _ => 0

/-- Models the zero-run search in Go's IP.String: the leftmost strictly longest
run of zero groups, kept only when at least two groups long. Go scans maximal
runs and skips over a found run; since every run starting inside a longer run
is strictly shorter, folding over all starting positions with strict
improvement selects the same run. -/
def bestRun (g : List Nat) : Option (Nat × Nat) :=
  let best := ((List.range g.length).map fun i => (i, runLen (g.drop i))).foldl
    (fun b c => if c.2 > b.2 then c else b) (0, 0)
  if best.2 ≥ 2 then some best else none

/-- Dotted-quad form of the four bytes, as Go's IP.String for IPv4. -/
def v4String (a b c d : Nat) : String :=
  String.mk (decChars a ++ '.' :: decChars b ++ '.' :: decChars c ++ '.' :: decChars d)

/-- Hex groups joined by ':' separators, as Go's String loop prints them. -/
def glueGroups : List Nat → List Char
  | [] => []
  | [g] => hexChars g
  | g :: rest => hexChars g ++ ':' :: glueGroups rest

/-- Accumulation of hex digit characters, as the parseV6 machine performs it. -/
def hexAccum (a : Nat) (ds : List Char) : Nat :=
  ds.foldl (fun x c => x * 16 + (hexVal c).getD 0) a

/-- Accumulation of decimal digit characters, as octetVal.go performs it. -/
def decAccum (a : Nat) (ds : List Char) : Nat :=
  ds.foldl (fun x c => x * 10 + (digVal c).getD 0) a

/-- IPv6 textual form of Go's IP.String: lowercase hex groups joined by ':',
with the best zero run compressed to "::". -/
def v6String (g : List Nat) : String :=
  match bestRun g with
  | none => String.mk (glueGroups g)
  | some (i, l) =>
    String.mk (glueGroups (g.take i) ++ ':' :: ':' :: glueGroups (g.drop (i + l)))

/-- Models IP.String: dotted quad when To4 is non-nil, IPv6 hex form otherwise. -/
def ipString (g : List Nat) : String :=
  if ipTo4 g then
    v4String (g.getD 6 0 / 256) (g.getD 6 0 % 256) (g.getD 7 0 / 256) (g.getD 7 0 % 256)
  else v6String g

/-- getResourceType from service.go: nil parse means Domain, To4 non-nil IPv4,
otherwise IPv6. -/
def getResourceType (resource : String) : String :=
  match parseIP resource with
  | none => "Domain"
  | some ip => if ipTo4 ip then "IPv4" else "IPv6"

/-! ## URL host extraction (net/url)

normaliseResource calls url.Parse and then uses only whether parsing failed,
whether u.Host is empty, and u.Hostname(). goURLHostname composes these three:
none when url.Parse errors or u.Host is empty, otherwise some u.Hostname().
The model follows net/url's Parse: cut the fragment at the first '#', reject
control bytes, getScheme, cut the query at the first '?', take the authority
between "//" and the next '/', split userinfo at the last '@', validate the
port suffix, unescape the host, and validate percent escapes in path and
fragment. Percent escapes that Go decodes to bytes at or above 0x80 are
rejected here (they produce raw bytes outside Lean's unicode strings); this
only narrows the modelled input set and is noted where used. -/

/-- Control bytes rejected by net/url parse (stringContainsCTLByte): below 0x20
or 0x7f. -/
def hasCtl (cs : List Char) : Bool := cs.any fun c => c.toNat < 0x20 ∨ c.toNat = 0x7f

/-- Result of net/url getScheme: a parse error (':' at position 0), no scheme,
or a scheme of the given length. -/
inductive SchemeRes
  | err
  | noScheme
  | schemeLen (i : Nat)
  deriving DecidableEq

/-- Models net/url getScheme: letters continue; digits, '+', '-', '.' continue
except at position 0 (no scheme); ':' ends a nonempty scheme and is an error at
position 0; any other character means no scheme. -/
def findScheme : List Char → Nat → SchemeRes
  | [], _ => .noScheme
  | c :: rest, i =>
    if isAlpha c then findScheme rest (i + 1)
    else if isDigit c ∨ c = '+' ∨ c = '-' ∨ c = '.' then
      if i = 0 then .noScheme else findScheme rest (i + 1)
    else if c = ':' then
      if i = 0 then .err else .schemeLen i
    else .noScheme

/-- Models net/url validOptionalPort: empty, or ':' followed by digits only. -/
def validOptionalPort : List Char → Bool
  | [] => true
  | ':' :: rest => rest.all isDigit
  | _ => false

/-- Models net/url shouldEscape for the host component: ASCII letters, digits,
the unreserved marks and the sub-delims listed in parseHost are kept, anything
else requires escaping (and so is an invalid host byte). -/
def shouldEscapeHost (c : Char) : Bool :=
  ¬ (isAlpha c ∨ isDigit c ∨
     c ∈ ['-', '_', '.', '~'] ∨
     c ∈ ['!', '$', '&', '\'', '(', ')', '*', '+', ',', ';', '=', ':', '[', ']', '<', '>', '"'])

/-- Models net/url unescape in host mode: a '%' must begin a valid triple; in
the host, percent-encoding is only allowed for non-ASCII bytes except the
literal "%25"; printable ASCII outside the allowed host set is an invalid host
character; non-ASCII characters pass through. Escapes of bytes 0x80 and above,
which Go decodes to raw bytes, are rejected by this model (restriction). -/
def unescapeHost : List Char → Option (List Char)
  | [] => some []
  | '%' :: c1 :: c2 :: rest =>
    match hexVal c1, hexVal c2 with
    | some v1, some v2 =>
      if v1 = 2 ∧ v2 = 5 then (unescapeHost rest).map ('%' :: ·)
      else none
    | _, _ => none
  | '%' :: _ => none
  | c :: rest =>
    if c.toNat < 0x80 ∧ shouldEscapeHost c then none
    else (unescapeHost rest).map (c :: ·)

/-- Every '%' begins a triple with two hex digits (unescape in path, fragment
and userinfo modes validates exactly this). -/
def percentOk : List Char → Bool
  | [] => true
  | '%' :: c1 :: c2 :: rest => (hexVal c1).isSome ∧ (hexVal c2).isSome ∧ percentOk rest
  | '%' :: _ => false
  | _ :: rest => percentOk rest

/-- Models net/url validUserinfo: ASCII alphanumerics and the listed marks. -/
def validUserinfo (cs : List Char) : Bool :=
  cs.all fun c =>
    isAlpha c ∨ isDigit c ∨
    c ∈ ['-', '.', '_', ':', '~', '!', '$', '&', '\'', '(', ')', '*', '+', ',', ';', '=', '%', '@']

/-- Models net/url parseHost: bracketed hosts need a closing ']' and a valid
optional port after it; unbracketed hosts need a valid optional port after the
last ':'; then the host is unescaped. Zone escapes inside brackets are handled
by the same unescaping (restriction: Go unescapes the "%25"-zone pieces in zone
mode, which this model treats like host mode). -/
def parseHost (h : List Char) : Option (List Char) :=
  if listStartsWith ['['] h then
    match lastIdx ']' h with
    | none => none
    | some i =>
      if ¬ validOptionalPort (h.drop (i + 1)) then none
      else unescapeHost h
  else
    match lastIdx ':' h with
    | some i => if ¬ validOptionalPort (h.drop i) then none else unescapeHost h
    | none => unescapeHost h

/-- Split the userinfo at the last '@' (net/url parseAuthority). -/
def splitAtLastAt (cs : List Char) : Option (List Char) × List Char :=
  match lastIdx '@' cs with
  | none => (none, cs)
  | some i => (some (cs.take i), cs.drop (i + 1))

/-- Models net/url parseAuthority: validate the userinfo when present (character
set and percent escapes), then parse the host part. -/
def parseAuthority (authority : List Char) : Option (List Char) :=
  match splitAtLastAt authority with
  | (none, hostPart) => parseHost hostPart
  | (some ui, hostPart) =>
    match parseHost hostPart with
    | none => none
    | some host =>
      if validUserinfo ui ∧ percentOk ui then some host else none

/-- Models url.URL.Hostname() via splitHostPort: strip a valid ':'-port suffix,
then strip one pair of surrounding brackets. -/
def hostnameOf (h : List Char) : List Char :=
  let h1 := match lastIdx ':' h with
    | some i => if validOptionalPort (h.drop i) then h.take i else h
    | none => h
  if listStartsWith ['['] h1 ∧ h1.getLast? = some ']' then (h1.drop 1).dropLast else h1

/-- Composition used by normaliseResource: url.Parse, the u.Host == "" check,
and u.Hostname(). Returns none when Parse errors or the host is empty. Branches
in which net/url would set an empty Host (no "//" authority, opaque part,
schemeless paths) return none directly, matching the caller's rejection; parse
errors Go raises in those branches are also none, so the observable result
agrees with net/url on every input. -/
def goURLHostname (s : String) : Option String :=
  let cut := cutAtChar '#' s.data
  let beforeHash := cut.1
  let frag := cut.2.1
  if hasCtl beforeHash then none
  else
    match findScheme beforeHash 0 with
    | .err => none
    | res =>
      let scheme : List Char := match res with
        | .schemeLen i => beforeHash.take i
        | _ => []
      let rest : List Char := match res with
        | .schemeLen i => beforeHash.drop (i + 1)
        | _ => beforeHash
      let rest2 := (cutAtChar '?' rest).1
      if ¬ listStartsWith ['/'] rest2 then none
      else if listStartsWith ['/', '/'] rest2 ∧
          (scheme ≠ [] ∨ ¬ listStartsWith ['/', '/', '/'] rest2) then
        let authority := (rest2.drop 2).takeWhile (· ≠ '/')
        let pathRest := (rest2.drop 2).dropWhile (· ≠ '/')
        if ¬ percentOk pathRest ∨ ¬ percentOk frag then none
        else
          match parseAuthority authority with
          | none => none
          | some host =>
            if host = [] then none
            else some (String.mk (hostnameOf host))
      else none

/-! ## IDNA validation (golang.org/x/net/idna, Lookup profile)

normaliseResource uses only whether idna.Lookup.ToASCII(host) returns an error.
The Lookup profile maps the input under UTS46 with UseSTD3ASCIIRules, checks
the bidi rule (vacuous for ASCII-only labels), checks hyphens (no '-' in
positions 3 and 4, no leading or trailing '-'), decodes ACE labels, and does
not verify DNS lengths - so empty labels, including one from a trailing dot,
are accepted. This model is restricted to ASCII: characters outside
[A-Za-z0-9.-] are rejected (Go maps further Unicode and decodes punycode; in
particular labels carrying the "xn--" ACE marker, rejected here by the
hyphen-3-4 rule, may be accepted by Go). The restriction narrows the set of
inputs that normalise successfully and is noted where it matters. -/

/-- Characters the ASCII fragment of the UTS46 mapped-and-valid set: letters
(uppercase is case-mapped by the profile), digits, hyphen, dot. -/
def idnaCharOk (c : Char) : Bool :=
  isAlpha c ∨ isDigit c ∨ c = '-' ∨ c = '.'

/-- Label validation of the Lookup profile for ASCII labels: empty labels pass
(only VerifyDNSLength rejects them, and Lookup does not set it); otherwise no
hyphens in positions 3 and 4 and no leading or trailing hyphen (CheckHyphens). -/
def idnaLabelOk (l : List Char) : Bool :=
  match l with
  | [] => true
  | c :: _ =>
    ¬ (l.get? 2 = some '-' ∧ l.get? 3 = some '-') ∧
    c ≠ '-' ∧ l.getLast? ≠ some '-'

/-- Models idna.Lookup.ToASCII(host) returning no error, restricted to ASCII. -/
def idnaOk (host : List Char) : Bool :=
  host.all idnaCharOk ∧ (splitOnChar '.' host).all idnaLabelOk

/-! ## normaliseResource (service.go) -/

/-- Models strings.TrimSpace. -/
def goTrimSpace (cs : List Char) : List Char :=
  (cs.dropWhile isGoSpace).reverse.dropWhile isGoSpace |>.reverse

/-- Models strings.ToLower, ASCII-restricted via goToLowerChar. -/
def goToLower (cs : List Char) : List Char := cs.map goToLowerChar

/-- Models strings.TrimSuffix(s, ".") : remove one trailing dot if present. -/
def trimOneTrailingDot (cs : List Char) : List Char :=
  if cs.getLast? = some '.' then cs.dropLast else cs

/-- Substring containment of "://" (strings.Contains). -/
def containsSchemeSep : List Char → Bool
  | ':' :: '/' :: '/' :: _ => true
  | _ :: rest => containsSchemeSep rest
  | [] => false

/-- normaliseResource from service.go, as a function on the raw string. The
steps are in source order: trim space, reject empty, strip one leading "*.",
bracket a bare IPv6 literal, default the scheme, extract the URL hostname
(rejecting parse errors and empty hosts), return the canonical string of an IP
hostname, otherwise lowercase, strip one trailing dot, reject empty, validate
with the IDNA lookup profile. -/
def normaliseResource (raw : String) : Option String :=
  let cs0 := goTrimSpace raw.data
  if cs0 = [] then none
  else
    let cs1 := if listStartsWith ['*', '.'] cs0 then cs0.drop 2 else cs0
    let cs2 :=
      if cs1.contains ':' ∧ ¬ cs1.contains '[' then
        match parseIP (String.mk cs1) with
        | some ip => if ¬ ipTo4 ip then '[' :: cs1 ++ [']'] else cs1
        | none => cs1
      else cs1
    let cs3 := if containsSchemeSep cs2 then cs2 else 'h' :: 't' :: 't' :: 'p' :: ':' :: '/' :: '/' :: cs2
    match goURLHostname (String.mk cs3) with
    | none => none
    | some host =>
      match parseIP host with
      | some ip => some (ipString ip)
      | none =>
        let h := trimOneTrailingDot (goToLower host.data)
        if h = [] then none
        else if idnaOk h then some (String.mk h) else none

/-- Kind of a normalised resource as described by the specification. -/
inductive ResourceKind
  | Domain
  | IPv4
  | IPv6
  deriving DecidableEq

/-- Wire string of a kind, matching the constants in service.go. -/
def kindString : ResourceKind → String
  | .Domain => "Domain"
  | .IPv4 => "IPv4"
  | .IPv6 => "IPv6"

/-- The specification's normalizer (section 4.1): same value as
normaliseResource together with the kind determined during normalization -
the address family when the URL hostname parses as an IP (step 7), Domain
otherwise (step 8). -/
def normaliseClassified (raw : String) : Option (String × ResourceKind) :=
  let cs0 := goTrimSpace raw.data
  if cs0 = [] then none
  else
    let cs1 := if listStartsWith ['*', '.'] cs0 then cs0.drop 2 else cs0
    let cs2 :=
      if cs1.contains ':' ∧ ¬ cs1.contains '[' then
        match parseIP (String.mk cs1) with
        | some ip => if ¬ ipTo4 ip then '[' :: cs1 ++ [']'] else cs1
        | none => cs1
      else cs1
    let cs3 := if containsSchemeSep cs2 then cs2 else 'h' :: 't' :: 't' :: 'p' :: ':' :: '/' :: '/' :: cs2
    match goURLHostname (String.mk cs3) with
    | none => none
    | some host =>
      match parseIP host with
      | some ip => some (ipString ip, if ipTo4 ip then .IPv4 else .IPv6)
      | none =>
        let h := trimOneTrailingDot (goToLower host.data)
        if h = [] then none
        else if idnaOk h then some (String.mk h, .Domain) else none

/-- normalise from service.go: map normaliseResource over the list, dropping
failures (the nil return for empty input is the empty list here). -/
def normalise (resources : List String) : List String :=
  resources.filterMap normaliseResource

/-! ## Error-response bodies and getErrorCode (service.go, encoding/json)

getErrorCode decodes the response body into a struct with a single string field
Code tagged json:"code" and then rejects an empty code. The body is modelled as
either a stream that is not valid JSON or a JSON value; decoding follows
encoding/json: the value must be null (leaving the zero value "") or an object;
object keys matching the field name case-insensitively assign the field when
the value is a string and record an error otherwise (the decoder saves the
first error but keeps going, so the last matching key wins the value while any
mismatched type still fails the call). -/

/-- JSON values. -/
inductive Json
  | null
  | bool (b : Bool)
  | num (n : Int)
  | str (s : String)
  | arr (elems : List Json)
  | obj (fields : List (String × Json))

/-- A response body: a byte stream that fails JSON decoding, or a JSON value. -/
inductive Body
  | notJson
  | json (j : Json)

/-- ASCII case-insensitive equality of field names (encoding/json matches field
names with strings.EqualFold). -/
def eqFold (a b : String) : Bool :=
  a.data.map goToLowerChar = b.data.map goToLowerChar

/-- Decoding a JSON value into the struct with one string field "code":
null leaves the zero value; an object assigns each case-insensitively matching
key in order, erroring on a non-string value; any other JSON value is a type
error. -/
def decodeCode (j : Json) : Option String :=
  match j with
  | .null => some ""
  | .obj fields =>
    fields.foldl
      (fun acc kv =>
        match acc with
        | none => none
        | some cur =>
          if eqFold kv.1 "code" then
            match kv.2 with
            | .str s => some s
            | _ => none
          else some cur)
      (some "")
  | _ => none

/-- Reasons getErrorCode can fail. -/
inductive CodeErr
  | decodeFailed
  | noCode
  deriving DecidableEq

/-- getErrorCode from service.go: decode the body into the code field, error on
a decode failure, error on an empty code, otherwise return the code. -/
def getErrorCode (b : Body) : Except CodeErr String :=
  match b with
  | .notJson => .error .decodeFailed
  | .json j =>
    match decodeCode j with
    | none => .error .decodeFailed
    | some code => if code = "" then .error .noCode else .ok code

/-! ## SyncResources (service.go)

The asm-sdk-go client is modelled by the outcomes of its three calls: the seed
fetch, the per-resource create outcome (the request is a function of the
resource name, the configured scan and tag), and the per-id delete outcome.
The Go map index is modelled as a list with map semantics (insert overwrites
by name; iteration order of a Go map is unspecified, and every property proved
about the delete phase is order-insensitive). -/

/-- A seed as returned by GetScanSeedsById (asm.SeedsResponseInner). -/
structure Seed where
  name : String
  tags : List String
  id : String
  deriving DecidableEq

/-- An HTTP response attached to a failed create call. -/
structure HttpResponse where
  statusCode : Nat
  body : Option Body

/-- Outcome of AddScanSeedById: success, or an error with an optional response. -/
inductive AddSeedOutcome
  | ok
  | fail (resp : Option HttpResponse)

/-- Outcomes of the SDK calls made by SyncResources. -/
structure SdkModel where
  getSeeds : Except Unit (List Seed)
  addSeed : String → AddSeedOutcome
  removeSeed : String → Bool

/-- Connector configuration (NewConnector). -/
structure Connector where
  scanID : String
  seedTag : String
  deleteStale : Bool

/-- Calls issued to the SDK that mutate the remote seed set. -/
inductive Call
  | create (name ty : String) (tags : List String)
  | delete (id : String)
  deriving DecidableEq

/-- Errors SyncResources returns (each wraps the underlying error with the
identifying context used in the fmt.Errorf format strings). -/
inductive SyncErr
  | getSeedsFailed (scanID : String)
  | addSeedFailed (resource : String)
  deriving DecidableEq

/-- Insert with overwrite-by-name, modelling byName[seed.Name] = &s. -/
def insertSeed (idx : List Seed) (s : Seed) : List Seed :=
  idx.filter (fun t => ¬ (t.name = s.name)) ++ [s]

/-- getSeeds from service.go builds the name-keyed index from the fetched list. -/
def buildIndex (seeds : List Seed) : List Seed :=
  seeds.foldl insertSeed []

/-- Map lookup existingSeeds[resource]. -/
def lookupSeed (idx : List Seed) (r : String) : Option Seed :=
  idx.find? (fun s => s.name = r)

/-- Map deletion delete(existingSeeds, resource). -/
def eraseSeed (idx : List Seed) (r : String) : List Seed :=
  idx.filter (fun s => ¬ (s.name = r))

/-- The create loop of SyncResources. For each resource in order: a resource
already in the index is removed from it and skipped; an IPv6 resource is
skipped with a warning; otherwise AddScanSeedById is called with the resource,
its type and the configured tag. On a call error: a non-nil response with
status 400 and a non-nil body whose code can be read is recoverable (log and
continue); every other failure aborts with an error naming the resource. The
result is the final index (or the error) together with the create calls issued. -/
def processResources (c : Connector) (sdk : SdkModel) :
    List String → List Seed → Except SyncErr (List Seed) × List Call
  | [], idx => (.ok idx, [])
  | r :: rest, idx =>
    match lookupSeed idx r with
    | some _ => processResources c sdk rest (eraseSeed idx r)
    | none =>
      let ty := getResourceType r
      if ty = "IPv6" then processResources c sdk rest idx
      else
        let call := Call.create r ty [c.seedTag]
        match sdk.addSeed r with
        | .ok =>
          let next := processResources c sdk rest idx
          (next.1, call :: next.2)
        | .fail resp =>
          match resp with
          | some re =>
            if re.statusCode = 400 then
              match re.body with
              | some b =>
                match getErrorCode b with
                | .ok _ =>
                  let next := processResources c sdk rest idx
                  (next.1, call :: next.2)
                | .error _ => (.error (.addSeedFailed r), [call])
              | none => (.error (.addSeedFailed r), [call])
            else (.error (.addSeedFailed r), [call])
          | none => (.error (.addSeedFailed r), [call])

/-- The delete phase of SyncResources: for every seed remaining in the index,
skip it unless its tags contain the configured seed tag, otherwise call
RemoveScanSeedById; the outcome of the call is only logged, never returned. -/
def deleteCalls (c : Connector) (idx : List Seed) : List Call :=
  idx.filterMap fun s => if c.seedTag ∈ s.tags then some (.delete s.id) else none

/-- The working resource list of SyncResources: dedup, normalise, dedup. -/
def workList (resources : List String) : List String :=
  dedup (normalise (dedup resources))

/-- SyncResources from service.go: build the working list, fetch the existing
seeds (any fetch error aborts with a wrapped error before any mutation), run
the create loop, and, only when deleteStale is set, issue the best-effort
delete calls for remaining tagged seeds. Returns the result together with the
trace of mutating calls issued. -/
def syncResources (c : Connector) (sdk : SdkModel) (resources : List String) :
    Except SyncErr Unit × List Call :=
  let rs := workList resources
  match sdk.getSeeds with
  | .error _ => (.error (.getSeedsFailed c.scanID), [])
  | .ok seeds =>
    match processResources c sdk rs (buildIndex seeds) with
    | (.error e, calls) => (.error e, calls)
    | (.ok idx, calls) =>
      if ¬ c.deleteStale then (.ok (), calls)
      else (.ok (), calls ++ deleteCalls c idx)

/-- Condition under which a failed create call is recovered: non-nil response,
status exactly 400 (http.StatusBadRequest), non-nil body whose code reads. -/
def recoverableResp : Option HttpResponse → Bool
  | none => false
  | some re =>
    (re.statusCode == 400) &&
    (match re.body with
     | none => false
     | some b => (getErrorCode b).toOption.isSome)

/-! ## Concrete fixtures used by witnesses -/

/-- A connector configured like the repository tests. -/
def testConn (ds : Bool) : Connector :=
  { scanID := "scan-123", seedTag := "seed-tag", deleteStale := ds }

/-- An SDK whose fetch returns the given seeds and whose mutations succeed. -/
def sdkAllOk (seeds : List Seed) : SdkModel :=
  { getSeeds := .ok seeds, addSeed := fun _ => .ok, removeSeed := fun _ => true }

/-- An SDK whose create calls fail with the given response. -/
def sdkAddFails (resp : Option HttpResponse) : SdkModel :=
  { getSeeds := .ok [], addSeed := fun _ => .fail resp, removeSeed := fun _ => true }

/-- An SDK whose seed fetch fails. -/
def sdkFetchFails : SdkModel :=
  { getSeeds := .error (), addSeed := fun _ => .ok, removeSeed := fun _ => true }

/-- A 400 response carrying the JSON body with code "ERR123". -/
def resp400Code : HttpResponse :=
  { statusCode := 400, body := some (.json (.obj [("code", .str "ERR123")])) }

/-! ## Properties of dedup -/

theorem dedupCore_sublist (seen : List String) (l : List String) :
    (dedupCore seen l).Sublist l := by
  induction l generalizing seen with
  | nil => simp [dedupCore]
  | cons r rest ih =>
    simp only [dedupCore]
    split
    · exact (ih seen).trans (List.sublist_cons_self r rest)
    · exact (ih (r :: seen)).cons₂ r

theorem dedupCore_not_mem_seen (seen : List String) (l : List String) :
    ∀ x ∈ dedupCore seen l, x ∉ seen := by
  induction l generalizing seen with
  | nil => simp [dedupCore]
  | cons r rest ih =>
    intro x hx
    simp only [dedupCore] at hx
    split at hx
    · exact ih seen x hx
    · rcases List.mem_cons.mp hx with h | h
      · subst h; assumption
      · intro hseen
        exact ih (r :: seen) x h (List.mem_cons_of_mem r hseen)

theorem dedupCore_nodup (seen : List String) (l : List String) :
    (dedupCore seen l).Nodup := by
  induction l generalizing seen with
  | nil => simp [dedupCore]
  | cons r rest ih =>
    simp only [dedupCore]
    split
    · exact ih seen
    · exact List.Nodup.cons
        (fun h => dedupCore_not_mem_seen (r :: seen) rest r h (List.mem_cons_self r seen))
        (ih (r :: seen))

theorem dedupCore_eq_self (seen : List String) (l : List String)
    (hnd : l.Nodup) (hdisj : ∀ x ∈ l, x ∉ seen) :
    dedupCore seen l = l := by
  induction l generalizing seen with
  | nil => simp [dedupCore]
  | cons r rest ih =>
    simp only [dedupCore]
    rw [if_neg (hdisj r (List.mem_cons_self r rest))]
    congr 1
    refine ih (r :: seen) (List.Nodup.of_cons hnd) ?_
    intro x hx
    simp only [List.mem_cons, not_or]
    exact ⟨fun he => (List.nodup_cons.mp hnd).1 (he ▸ hx), hdisj x (List.mem_cons_of_mem r hx)⟩

theorem firstOccurrences_foldl (l : List String) (acc seen : List String)
    (hms : ∀ x, x ∈ seen ↔ x ∈ acc) :
    l.foldl (fun acc a => if a ∈ acc then acc else acc ++ [a]) acc = acc ++ dedupCore seen l := by
  induction l generalizing acc seen with
  | nil => simp [dedupCore]
  | cons r rest ih =>
    simp only [List.foldl_cons, dedupCore]
    by_cases hr : r ∈ acc
    · rw [if_pos hr, if_pos ((hms r).mpr hr)]
      exact ih acc seen hms
    · rw [if_neg hr, if_neg (fun h => hr ((hms r).mp h))]
      rw [ih (acc ++ [r]) (r :: seen) (by intro x; simp [hms x, or_comm])]
      simp

theorem dedup_eq_core (x : List String) : dedup x = dedupCore [] x := by
  unfold dedup
  split
  · match x with
    | [] => rfl
    | [a] => simp [dedupCore]
    | a :: b :: t => simp [List.length_cons] at *; omega
  · rfl

theorem dedup_eq_firstOccurrences (x : List String) : dedup x = firstOccurrences x := by
  rw [dedup_eq_core, firstOccurrences,
    firstOccurrences_foldl x [] [] (by intro x; simp), List.nil_append]

theorem dedup_nodup (x : List String) : (dedup x).Nodup := by
  rw [dedup_eq_core]; exact dedupCore_nodup [] x

theorem dedup_sublist (x : List String) : (dedup x).Sublist x := by
  rw [dedup_eq_core]; exact dedupCore_sublist [] x

theorem dedup_idem (x : List String) : dedup (dedup x) = dedup x := by
  conv_lhs => rw [dedup_eq_core (dedup x)]
  exact dedupCore_eq_self [] (dedup x) (dedup_nodup x) (by simp)

theorem dedupCore_mem (seen l : List String) (a : String) :
    a ∈ dedupCore seen l ↔ (a ∈ l ∧ a ∉ seen) := by
  induction l generalizing seen with
  | nil => simp [dedupCore]
  | cons r rest ih =>
    simp only [dedupCore]
    split
    · rw [ih seen]
      constructor
      · exact fun ⟨h1, h2⟩ => ⟨List.mem_cons_of_mem r h1, h2⟩
      · rintro ⟨h1, h2⟩
        rcases List.mem_cons.mp h1 with he | hm
        · exact absurd (he ▸ ‹r ∈ seen›) h2
        · exact ⟨hm, h2⟩
    · simp only [List.mem_cons, ih (r :: seen), List.mem_cons, not_or]
      constructor
      · rintro (he | ⟨h1, h2, h3⟩)
        · exact ⟨Or.inl he, he ▸ ‹r ∉ seen›⟩
        · exact ⟨Or.inr h1, h3⟩
      · rintro ⟨he | hm, hs⟩
        · exact Or.inl he
        · by_cases har : a = r
          · exact Or.inl har
          · exact Or.inr ⟨hm, har, hs⟩

theorem dedup_mem (x : List String) (a : String) : a ∈ dedup x ↔ a ∈ x := by
  rw [dedup_eq_core, dedupCore_mem]
  simp

/-- C4: for every sequence of strings, dedup x has no repeated elements, is the
subsequence of x keeping exactly the first occurrence of each distinct value
(stated as equality with the specification-side firstOccurrences and as the
subsequence property), is idempotent, and returns inputs of length below two
unchanged. String comparison is definitional equality, hence case-sensitive. -/
theorem claim_C4_dedup_laws (x : List String) :
    (dedup x).Nodup ∧ dedup x = firstOccurrences x ∧ (dedup x).Sublist x ∧
    dedup (dedup x) = dedup x ∧ (x.length < 2 → dedup x = x) :=
  ⟨dedup_nodup x, dedup_eq_firstOccurrences x, dedup_sublist x, dedup_idem x,
    fun h => by unfold dedup; rw [if_pos h]⟩

/-- Witness for C4 at concrete inputs, discharging the length hypothesis. -/
theorem claim_C4_dedup_laws_witness :
    dedup ["a"] = ["a"] ∧ dedup ["b", "a", "b"] = ["b", "a"] :=
  ⟨(claim_C4_dedup_laws ["a"]).2.2.2.2 (by decide),
   by rw [(claim_C4_dedup_laws ["b", "a", "b"]).2.1]; decide⟩

/-! ## Properties of the create loop and of SyncResources -/

theorem processResources_nil (c : Connector) (sdk : SdkModel) (idx : List Seed) :
    processResources c sdk [] idx = (.ok idx, []) := rfl

theorem processResources_hit (c : Connector) (sdk : SdkModel) (x : String)
    (rest : List String) (idx : List Seed) (s : Seed) (hl : lookupSeed idx x = some s) :
    processResources c sdk (x :: rest) idx = processResources c sdk rest (eraseSeed idx x) := by
  simp [processResources, hl]

theorem processResources_v6 (c : Connector) (sdk : SdkModel) (x : String)
    (rest : List String) (idx : List Seed) (hl : lookupSeed idx x = none)
    (ht : getResourceType x = "IPv6") :
    processResources c sdk (x :: rest) idx = processResources c sdk rest idx := by
  simp [processResources, hl, ht]

theorem processResources_create_ok (c : Connector) (sdk : SdkModel) (x : String)
    (rest : List String) (idx : List Seed) (hl : lookupSeed idx x = none)
    (ht : getResourceType x ≠ "IPv6") (ha : sdk.addSeed x = .ok) :
    processResources c sdk (x :: rest) idx =
      ((processResources c sdk rest idx).1,
       Call.create x (getResourceType x) [c.seedTag] :: (processResources c sdk rest idx).2) := by
  simp [processResources, hl, ht, ha]

theorem processResources_create_recovered (c : Connector) (sdk : SdkModel) (x : String)
    (rest : List String) (idx : List Seed) (resp : Option HttpResponse)
    (hl : lookupSeed idx x = none) (ht : getResourceType x ≠ "IPv6")
    (ha : sdk.addSeed x = .fail resp) (hr : recoverableResp resp = true) :
    processResources c sdk (x :: rest) idx =
      ((processResources c sdk rest idx).1,
       Call.create x (getResourceType x) [c.seedTag] :: (processResources c sdk rest idx).2) := by
  rcases resp with _ | re
  · simp [recoverableResp] at hr
  · rcases hb : re.body with _ | b
    · simp [recoverableResp, hb] at hr
    · rcases hc : getErrorCode b with e | code
      · simp [recoverableResp, hb, hc, Except.toOption] at hr
      · simp only [recoverableResp, hb, hc, Except.toOption, Option.isSome_some,
          Bool.and_true, beq_iff_eq] at hr
        simp [processResources, hl, ht, ha, hb, hc, hr]

theorem processResources_create_fatal (c : Connector) (sdk : SdkModel) (x : String)
    (rest : List String) (idx : List Seed) (resp : Option HttpResponse)
    (hl : lookupSeed idx x = none) (ht : getResourceType x ≠ "IPv6")
    (ha : sdk.addSeed x = .fail resp) (hr : recoverableResp resp = false) :
    processResources c sdk (x :: rest) idx =
      (.error (.addSeedFailed x), [Call.create x (getResourceType x) [c.seedTag]]) := by
  rcases resp with _ | re
  · simp [processResources, hl, ht, ha]
  · by_cases h4 : re.statusCode = 400
    · rcases hb : re.body with _ | b
      · simp [processResources, hl, ht, ha, hb, h4]
      · rcases hc : getErrorCode b with e | code
        · simp [processResources, hl, ht, ha, hb, hc, h4]
        · simp [recoverableResp, hb, hc, Except.toOption, h4] at hr
    · simp [processResources, hl, ht, ha, h4]

/-- Case analysis on one step of the create loop, packaged for inductions: the
step either recurses (possibly erasing the hit entry and possibly adding a
create call in front of the trace) or aborts with the failing call alone. -/
theorem processResources_cases (c : Connector) (sdk : SdkModel) (x : String)
    (rest : List String) (idx : List Seed) :
    (∃ s, lookupSeed idx x = some s ∧
      processResources c sdk (x :: rest) idx = processResources c sdk rest (eraseSeed idx x)) ∨
    (lookupSeed idx x = none ∧
      processResources c sdk (x :: rest) idx = processResources c sdk rest idx) ∨
    (lookupSeed idx x = none ∧
      processResources c sdk (x :: rest) idx =
        ((processResources c sdk rest idx).1,
         Call.create x (getResourceType x) [c.seedTag] :: (processResources c sdk rest idx).2)) ∨
    (lookupSeed idx x = none ∧
      processResources c sdk (x :: rest) idx =
        (.error (.addSeedFailed x), [Call.create x (getResourceType x) [c.seedTag]])) := by
  rcases hl : lookupSeed idx x with _ | s
  · by_cases ht : getResourceType x = "IPv6"
    · exact Or.inr (Or.inl ⟨rfl, processResources_v6 c sdk x rest idx hl ht⟩)
    · rcases ha : sdk.addSeed x with _ | resp
      · exact Or.inr (Or.inr (Or.inl ⟨rfl, processResources_create_ok c sdk x rest idx hl ht ha⟩))
      · rcases hr : recoverableResp resp with _ | _
        · exact Or.inr (Or.inr (Or.inr ⟨rfl,
            processResources_create_fatal c sdk x rest idx resp hl ht ha hr⟩))
        · exact Or.inr (Or.inr (Or.inl ⟨rfl,
            processResources_create_recovered c sdk x rest idx resp hl ht ha hr⟩))
  · exact Or.inl ⟨s, rfl, processResources_hit c sdk x rest idx s hl⟩

/-- An aborted create phase always has the failing create call in its trace. -/
theorem processResources_error_trace_ne_nil (c : Connector) (sdk : SdkModel)
    (rs : List String) (idx : List Seed) (r : String)
    (h : (processResources c sdk rs idx).1 = .error (.addSeedFailed r)) :
    (processResources c sdk rs idx).2 ≠ [] := by
  induction rs generalizing idx with
  | nil => simp [processResources] at h
  | cons x rest ih =>
    rcases processResources_cases c sdk x rest idx with
      ⟨s, _, he⟩ | ⟨_, he⟩ | ⟨_, he⟩ | ⟨_, he⟩ <;> rw [he] at h ⊢
    · exact ih (eraseSeed idx x) h
    · exact ih idx h
    · simp
    · simp

/-- The create loop issues no delete calls. -/
theorem processResources_no_delete (c : Connector) (sdk : SdkModel)
    (rs : List String) (idx : List Seed) (i : String) :
    Call.delete i ∉ (processResources c sdk rs idx).2 := by
  induction rs generalizing idx with
  | nil => simp [processResources]
  | cons x rest ih =>
    rcases processResources_cases c sdk x rest idx with
      ⟨s, _, he⟩ | ⟨_, he⟩ | ⟨_, he⟩ | ⟨_, he⟩ <;> rw [he]
    · exact ih (eraseSeed idx x)
    · exact ih idx
    · simpa using ih idx
    · simp

/-- Names absent from the index are not found. -/
theorem lookupSeed_none_iff (idx : List Seed) (x : String) :
    lookupSeed idx x = none ↔ ∀ s ∈ idx, s.name ≠ x := by
  simp [lookupSeed, List.find?_eq_none]

/-- When the create loop finishes, the surviving index is exactly the starting
index restricted to names outside the processed list. -/
theorem processResources_final_index (c : Connector) (sdk : SdkModel)
    (rs : List String) (idx idx' : List Seed) (calls : List Call)
    (h : processResources c sdk rs idx = (.ok idx', calls)) :
    idx' = idx.filter (fun s => !(rs.contains s.name)) := by
  induction rs generalizing idx calls with
  | nil =>
    simp only [processResources, Prod.mk.injEq, Except.ok.injEq] at h
    simp [← h.1]
  | cons x rest ih =>
    have hsame : lookupSeed idx x = none →
        idx.filter (fun s => !(rest.contains s.name)) =
          idx.filter (fun s => !((x :: rest).contains s.name)) := by
      intro hl
      apply List.filter_congr
      intro t ht
      have hne := (lookupSeed_none_iff idx x).mp hl t ht
      simp [List.contains_cons, hne]
    rcases processResources_cases c sdk x rest idx with
      ⟨s, hl, he⟩ | ⟨hl, he⟩ | ⟨hl, he⟩ | ⟨hl, he⟩ <;> rw [he] at h
    · have := ih (eraseSeed idx x) calls h
      rw [this, eraseSeed, List.filter_filter]
      apply List.filter_congr
      intro t _
      simp only [List.contains_cons, Bool.not_or, Bool.and_comm]
      congr 1
      by_cases hx : t.name = x
      · simp [hx]
      · simp [hx, Ne.symm hx]
    · rw [← hsame hl]
      exact ih idx calls h
    · rcases hp : processResources c sdk rest idx with ⟨res, tr⟩
      rw [hp] at h
      cases res with
      | error e => simp at h
      | ok v =>
        simp only [Prod.mk.injEq, Except.ok.injEq] at h
        rw [← hsame hl]
        exact ih idx tr (by rw [hp, h.1])
    · simp at h

/-- A name with a matching entry is found. -/
theorem lookupSeed_isSome_of_mem (idx : List Seed) (n : String) (s : Seed)
    (hs : s ∈ idx) (hn : s.name = n) : ∃ t, lookupSeed idx n = some t := by
  rcases ho : lookupSeed idx n with _ | t
  · exact absurd hn ((lookupSeed_none_iff idx n).mp ho s hs)
  · exact ⟨t, rfl⟩

/-- When every resource matches an existing entry and the list has no
duplicates, the loop issues no calls and succeeds. -/
theorem processResources_all_hit (c : Connector) (sdk : SdkModel)
    (rs : List String) (idx : List Seed) (hnd : rs.Nodup)
    (hhit : ∀ n ∈ rs, ∃ s ∈ idx, s.name = n) :
    ∃ idx', processResources c sdk rs idx = (.ok idx', []) := by
  induction rs generalizing idx with
  | nil => exact ⟨idx, rfl⟩
  | cons x rest ih =>
    rcases hhit x (List.mem_cons_self x rest) with ⟨s, hs, hn⟩
    rcases lookupSeed_isSome_of_mem idx x s hs hn with ⟨t, ht⟩
    rw [processResources_hit c sdk x rest idx t ht]
    refine ih (eraseSeed idx x) (List.Nodup.of_cons hnd) ?_
    intro n hnrest
    rcases hhit n (List.mem_cons_of_mem x hnrest) with ⟨u, hu, hun⟩
    refine ⟨u, ?_, hun⟩
    rw [eraseSeed, List.mem_filter]
    refine ⟨hu, ?_⟩
    have hne : n ≠ x := fun he => (List.nodup_cons.mp hnd).1 (he ▸ hnrest)
    simp [hun, hne]

/-- Names present in the built index are exactly the fetched seed names. -/
theorem buildIndex_names (seeds : List Seed) (n : String) :
    (∃ s ∈ buildIndex seeds, s.name = n) ↔ n ∈ seeds.map Seed.name := by
  suffices h : ∀ acc : List Seed, (∃ s ∈ seeds.foldl insertSeed acc, s.name = n) ↔
      ((∃ s ∈ acc, s.name = n) ∨ n ∈ seeds.map Seed.name) by
    rw [buildIndex, h []]
    simp
  induction seeds with
  | nil => simp
  | cons s0 rest ih =>
    intro acc
    rw [List.foldl_cons, ih (insertSeed acc s0)]
    have hstep : (∃ s ∈ insertSeed acc s0, s.name = n) ↔
        (s0.name = n ∨ ∃ s ∈ acc, s.name = n) := by
      constructor
      · rintro ⟨s, hs, hn⟩
        rw [insertSeed, List.mem_append] at hs
        rcases hs with hf | hl
        · exact Or.inr ⟨s, (List.mem_filter.mp hf).1, hn⟩
        · simp only [List.mem_singleton] at hl
          exact Or.inl (hl ▸ hn)
      · rintro (he | ⟨s, hs, hn⟩)
        · exact ⟨s0, by simp [insertSeed], he⟩
        · by_cases hq : s.name = s0.name
          · exact ⟨s0, by simp [insertSeed], hq ▸ hn⟩
          · exact ⟨s, by simp [insertSeed, List.mem_filter, hs, hq], hn⟩
    rw [hstep, show (s0.name = n) ↔ (n = s0.name) from eq_comm]
    simp only [List.map_cons, List.mem_cons]
    constructor
    · rintro ((h | h) | h)
      · exact Or.inr (Or.inl h)
      · exact Or.inl h
      · exact Or.inr (Or.inr h)
    · rintro (h | h | h)
      · exact Or.inl (Or.inr h)
      · exact Or.inl (Or.inl h)
      · exact Or.inr h

/-- Elements accumulated by the index fold come from the accumulator or the
fetched list. -/
theorem foldl_insertSeed_subset (seeds : List Seed) :
    ∀ (acc : List Seed) (s : Seed), s ∈ seeds.foldl insertSeed acc → s ∈ acc ∨ s ∈ seeds := by
  induction seeds with
  | nil => intro acc s h0; exact Or.inl h0
  | cons s0 rest ih =>
    intro acc s h0
    rw [List.foldl_cons] at h0
    rcases ih (insertSeed acc s0) s h0 with h1 | h1
    · rw [insertSeed, List.mem_append] at h1
      rcases h1 with h2 | h2
      · exact Or.inl (List.mem_filter.mp h2).1
      · simp only [List.mem_singleton] at h2
        exact Or.inr (h2 ▸ List.mem_cons_self s0 rest)
    · exact Or.inr (List.mem_cons_of_mem s0 h1)

/-- Entries of the built index come from the fetched list. -/
theorem buildIndex_subset (seeds : List Seed) (s : Seed) (h : s ∈ buildIndex seeds) :
    s ∈ seeds := by
  rcases foldl_insertSeed_subset seeds [] s h with h0 | h0
  · simp at h0
  · exact h0

/-- Membership of a delete call in the delete phase output. -/
theorem deleteCalls_mem (c : Connector) (idx : List Seed) (i : String) :
    Call.delete i ∈ deleteCalls c idx ↔ ∃ s ∈ idx, s.id = i ∧ c.seedTag ∈ s.tags := by
  rw [deleteCalls, List.mem_filterMap]
  constructor
  · rintro ⟨s, hs, hf⟩
    split at hf
    · simp only [Option.some.injEq, Call.delete.injEq] at hf
      exact ⟨s, hs, hf, by assumption⟩
    · simp at hf
  · rintro ⟨s, hs, hid, htag⟩
    exact ⟨s, hs, by simp [htag, hid]⟩

/-- getErrorCode succeeds exactly on a JSON body whose decoded code field is a
non-empty string. -/
theorem getErrorCode_ok_iff (b : Body) :
    (∃ code, getErrorCode b = .ok code) ↔
      ∃ j code, b = .json j ∧ decodeCode j = some code ∧ code ≠ "" := by
  cases b with
  | notJson =>
    constructor
    · rintro ⟨code, hc⟩
      exact absurd hc (by simp [getErrorCode])
    · rintro ⟨j, code, hj, _⟩
      exact absurd hj (by simp)
  | json j =>
    constructor
    · rintro ⟨code, hc⟩
      simp only [getErrorCode] at hc
      split at hc
      · exact absurd hc (by simp)
      · rename_i c0 hd
        split at hc
        · exact absurd hc (by simp)
        · rename_i hz
          simp only [Except.ok.injEq] at hc
          exact ⟨j, c0, rfl, hd, hz⟩
    · rintro ⟨j', code, hj, hdec, hne⟩
      injection hj with hj'
      subst hj'
      exact ⟨code, by simp [getErrorCode, hdec, hne]⟩

/-- recoverableResp holds exactly under the conditions stated by the spec: non-nil
response with status 400 and a body decoding to a non-empty code. -/
theorem recoverableResp_iff (resp : Option HttpResponse) :
    recoverableResp resp = true ↔
      ∃ re j code, resp = some re ∧ re.statusCode = 400 ∧
        re.body = some (.json j) ∧ decodeCode j = some code ∧ code ≠ "" := by
  rcases resp with _ | re
  · simp [recoverableResp]
  · rcases hb : re.body with _ | b
    · simp [recoverableResp, hb]
    · rcases hc : getErrorCode b with e | code
      · simp only [recoverableResp, hb, hc, Except.toOption, Option.isSome_none,
          Bool.and_false, Bool.false_eq_true, false_iff]
        rintro ⟨re', j, code, hre, h4, hbj, hdec, hne⟩
        injection hre with hre'
        subst hre'
        rw [hb] at hbj
        injection hbj with hbj'
        subst hbj'
        have : ∃ code, getErrorCode (Body.json j) = .ok code :=
          (getErrorCode_ok_iff (Body.json j)).mpr ⟨j, code, rfl, hdec, hne⟩
        rcases this with ⟨code', hc'⟩
        rw [hc] at hc'
        exact absurd hc' (by simp)
      · simp only [recoverableResp, hb, hc, Except.toOption, Option.isSome_some,
          Bool.and_true, beq_iff_eq]
        constructor
        · intro h4
          have := (getErrorCode_ok_iff b).mp ⟨code, hc⟩
          rcases this with ⟨j, code', hbj, hdec, hne⟩
          exact ⟨re, j, code', rfl, h4, by rw [hb, hbj], hdec, hne⟩
        · rintro ⟨re', j, code', hre, h4, hbj, hdec, hne⟩
          injection hre with hre'
          subst hre'
          exact h4

/-- C1: when a create-seed call fails, the reconcile loop continues to the next
resource exactly when the response exists, its status is 400 (the bad-request
status) and its body is JSON decoding to a non-empty code; in every other
failing case the loop aborts, returning the error wrapping the offending
resource, with that resource's create call as the last call issued. -/
theorem claim_C1_create_failure_classification (c : Connector) (sdk : SdkModel)
    (r : String) (rest : List String) (idx : List Seed) (resp : Option HttpResponse)
    (hl : lookupSeed idx r = none) (ht : getResourceType r ≠ "IPv6")
    (ha : sdk.addSeed r = .fail resp) :
    (processResources c sdk (r :: rest) idx =
        ((processResources c sdk rest idx).1,
         Call.create r (getResourceType r) [c.seedTag] :: (processResources c sdk rest idx).2) ↔
      (∃ re j code, resp = some re ∧ re.statusCode = 400 ∧
        re.body = some (.json j) ∧ decodeCode j = some code ∧ code ≠ "")) ∧
    (¬ (∃ re j code, resp = some re ∧ re.statusCode = 400 ∧
        re.body = some (.json j) ∧ decodeCode j = some code ∧ code ≠ "") →
      processResources c sdk (r :: rest) idx =
        (.error (.addSeedFailed r), [Call.create r (getResourceType r) [c.seedTag]])) := by
  constructor
  · constructor
    · intro hcont
      by_contra hnot
      have hr : recoverableResp resp = false := by
        rcases hb : recoverableResp resp with _ | _
        · rfl
        · exact absurd ((recoverableResp_iff resp).mp hb) hnot
      have hfatal := processResources_create_fatal c sdk r rest idx resp hl ht ha hr
      rw [hfatal] at hcont
      have h1 : Except.error (SyncErr.addSeedFailed r) = (processResources c sdk rest idx).1 ∧
          ([Call.create r (getResourceType r) [c.seedTag]] : List Call) =
            Call.create r (getResourceType r) [c.seedTag] :: (processResources c sdk rest idx).2 := by
        constructor
        · exact congrArg Prod.fst hcont
        · exact congrArg Prod.snd hcont
      have h2 : (processResources c sdk rest idx).2 = [] := by
        have := h1.2
        simpa using this.symm
      exact processResources_error_trace_ne_nil c sdk rest idx r h1.1.symm h2
    · intro hcond
      exact processResources_create_recovered c sdk r rest idx resp hl ht ha
        ((recoverableResp_iff resp).mpr hcond)
  · intro hnot
    have hr : recoverableResp resp = false := by
      rcases hb : recoverableResp resp with _ | _
      · rfl
      · exact absurd ((recoverableResp_iff resp).mp hb) hnot
    exact processResources_create_fatal c sdk r rest idx resp hl ht ha hr

/-- Witness for C1: a 400 response with body code "ERR123" is recovered; the
instantiated equivalence and fatal implication hold at these concrete inputs. -/
theorem claim_C1_witness :
    processResources (testConn false) (sdkAddFails (some resp400Code))
        ["example.com"] [] =
      ((processResources (testConn false) (sdkAddFails (some resp400Code)) [] []).1,
       Call.create "example.com" (getResourceType "example.com")
           [(testConn false).seedTag] ::
         (processResources (testConn false) (sdkAddFails (some resp400Code)) [] []).2) :=
  (claim_C1_create_failure_classification (testConn false) (sdkAddFails (some resp400Code))
      "example.com" [] [] (some resp400Code) (by decide) (by decide) rfl).1.mpr
    ⟨resp400Code, .obj [("code", .str "ERR123")], "ERR123", rfl, rfl, rfl, by decide, by decide⟩

/-- C2: when the normalized working list carries exactly the names of the
fetched seed set, reconcile issues no create and no delete calls and returns
success, whatever the stale-deletion setting. -/
theorem claim_C2_idempotence (c : Connector) (sdk : SdkModel) (raw : List String)
    (seeds : List Seed) (hok : sdk.getSeeds = .ok seeds)
    (hset : ∀ n, n ∈ workList raw ↔ n ∈ seeds.map Seed.name) :
    syncResources c sdk raw = (.ok (), []) := by
  have hnd : (workList raw).Nodup := by
    rw [workList]; exact dedup_nodup _
  have hhit : ∀ n ∈ workList raw, ∃ s ∈ buildIndex seeds, s.name = n := by
    intro n hn
    exact (buildIndex_names seeds n).mpr ((hset n).mp hn)
  rcases processResources_all_hit c sdk (workList raw) (buildIndex seeds) hnd hhit with
    ⟨idx', hp⟩
  have hidx : idx' = [] := by
    have hchar := processResources_final_index c sdk (workList raw) (buildIndex seeds) idx' [] hp
    rw [hchar]
    apply List.eq_nil_iff_forall_not_mem.mpr
    intro s hs
    rw [List.mem_filter] at hs
    have hname : s.name ∈ seeds.map Seed.name :=
      (buildIndex_names seeds s.name).mp ⟨s, hs.1, rfl⟩
    have hwork : s.name ∈ workList raw := (hset s.name).mpr hname
    have h2 := hs.2
    simp [List.contains, hwork] at h2
  rw [syncResources, hok]
  simp only
  rw [hp, hidx]
  by_cases hd : c.deleteStale
  · simp [hd, deleteCalls]
  · simp [hd]

/-- Witness for C2 at the concrete seed set with name a.com. -/
theorem claim_C2_witness :
    syncResources (testConn true)
        (sdkAllOk [{ name := "a.com", tags := ["seed-tag"], id := "id-a" }]) ["a.com"] =
      (.ok (), []) :=
  claim_C2_idempotence (testConn true)
    (sdkAllOk [{ name := "a.com", tags := ["seed-tag"], id := "id-a" }]) ["a.com"]
    [{ name := "a.com", tags := ["seed-tag"], id := "id-a" }] rfl
    (by
      intro n
      rw [show workList ["a.com"] = ["a.com"] from by decide]
      simp)

/-- C3: with stale deletion enabled and a completed create phase, the delete
calls of the run are exactly those for seeds remaining in the index - which is
exactly the fetched index restricted to names outside the working list - whose
tags contain the configured seed tag; and in any run whatsoever, a delete call
only ever targets an indexed seed carrying the seed tag. -/
theorem claim_C3_stale_deletion (c : Connector) (sdk : SdkModel) (raw : List String)
    (seeds : List Seed) (idx' : List Seed) (calls : List Call)
    (hok : sdk.getSeeds = .ok seeds) (hds : c.deleteStale = true)
    (hp : processResources c sdk (workList raw) (buildIndex seeds) = (.ok idx', calls)) :
    (∀ i, Call.delete i ∈ (syncResources c sdk raw).2 ↔
      ∃ s ∈ idx', s.id = i ∧ c.seedTag ∈ s.tags) ∧
    (∀ s, s ∈ idx' ↔ s ∈ buildIndex seeds ∧ s.name ∉ workList raw) ∧
    (∀ (raw' : List String) (i : String), Call.delete i ∈ (syncResources c sdk raw').2 →
      ∃ s ∈ buildIndex seeds, s.id = i ∧ c.seedTag ∈ s.tags) := by
  have htrace : (syncResources c sdk raw).2 = calls ++ deleteCalls c idx' := by
    rw [syncResources, hok]
    simp only
    rw [hp]
    simp [hds]
  refine ⟨?_, ?_, ?_⟩
  · intro i
    rw [htrace, List.mem_append]
    constructor
    · rintro (hc | hc)
      · exact absurd hc (by
          have := processResources_no_delete c sdk (workList raw) (buildIndex seeds) i
          rw [hp] at this
          simpa using this)
      · exact (deleteCalls_mem c idx' i).mp hc
    · intro hex
      exact Or.inr ((deleteCalls_mem c idx' i).mpr hex)
  · intro s
    have hchar := processResources_final_index c sdk (workList raw) (buildIndex seeds)
      idx' calls hp
    rw [hchar, List.mem_filter]
    constructor
    · rintro ⟨h1, h2⟩
      refine ⟨h1, ?_⟩
      intro hm
      simp [List.contains, hm] at h2
    · rintro ⟨h1, h2⟩
      refine ⟨h1, ?_⟩
      simp [List.contains, h2]
  · intro raw' i hdel
    rw [syncResources, hok] at hdel
    simp only at hdel
    rcases hq : processResources c sdk (workList raw') (buildIndex seeds) with ⟨res, tr⟩
    rw [hq] at hdel
    have hnodel := processResources_no_delete c sdk (workList raw') (buildIndex seeds) i
    rw [hq] at hnodel
    cases res with
    | error e =>
      simp only at hdel
      exact absurd hdel hnodel
    | ok idx2 =>
      simp only at hdel
      by_cases hd : c.deleteStale
      · rw [if_neg (by simpa using hd)] at hdel
        simp only at hdel
        rcases List.mem_append.mp hdel with hc | hc
        · exact absurd hc hnodel
        · rcases (deleteCalls_mem c idx2 i).mp hc with ⟨s, hs, hid, htag⟩
          have hchar2 := processResources_final_index c sdk (workList raw')
            (buildIndex seeds) idx2 tr hq
          rw [hchar2, List.mem_filter] at hs
          exact ⟨s, hs.1, hid, htag⟩
      · rw [if_pos (by simpa using hd)] at hdel
        simp only at hdel
        exact absurd hdel hnodel

/-- Witness for C3 at the spec's third end-to-end scenario. -/
theorem claim_C3_witness :
    Call.delete "stale-id" ∈
      (syncResources (testConn true)
        (sdkAllOk [{ name := "keep.com", tags := ["seed-tag"], id := "keep-id" },
                   { name := "stale.com", tags := ["seed-tag"], id := "stale-id" },
                   { name := "skip.com", tags := ["other-tag"], id := "skip-id" }])
        ["keep.com"]).2 ∧
    ¬ Call.delete "skip-id" ∈
      (syncResources (testConn true)
        (sdkAllOk [{ name := "keep.com", tags := ["seed-tag"], id := "keep-id" },
                   { name := "stale.com", tags := ["seed-tag"], id := "stale-id" },
                   { name := "skip.com", tags := ["other-tag"], id := "skip-id" }])
        ["keep.com"]).2 := by
  have h := claim_C3_stale_deletion (testConn true)
    (sdkAllOk [{ name := "keep.com", tags := ["seed-tag"], id := "keep-id" },
               { name := "stale.com", tags := ["seed-tag"], id := "stale-id" },
               { name := "skip.com", tags := ["other-tag"], id := "skip-id" }])
    ["keep.com"]
    [{ name := "keep.com", tags := ["seed-tag"], id := "keep-id" },
     { name := "stale.com", tags := ["seed-tag"], id := "stale-id" },
     { name := "skip.com", tags := ["other-tag"], id := "skip-id" }]
    [{ name := "stale.com", tags := ["seed-tag"], id := "stale-id" },
     { name := "skip.com", tags := ["other-tag"], id := "skip-id" }]
    [] rfl rfl rfl
  constructor
  · exact (h.1 "stale-id").mpr
      ⟨{ name := "stale.com", tags := ["seed-tag"], id := "stale-id" }, by decide, rfl, by decide⟩
  · intro hmem
    rcases (h.1 "skip-id").mp hmem with ⟨s, hs, hid, htag⟩
    simp only [List.mem_cons, List.not_mem_nil, or_false] at hs
    rcases hs with h1 | h1 <;> subst h1 <;> simp_all [testConn]

/-- C6: a failing seed fetch aborts the run with the wrapped error naming the
scan, before any create or delete call is issued. -/
theorem claim_C6_fetch_failure (c : Connector) (sdk : SdkModel) (raw : List String)
    (e : Unit) (h : sdk.getSeeds = .error e) :
    syncResources c sdk raw = (.error (.getSeedsFailed c.scanID), []) := by
  rw [syncResources, h]

/-- Witness for C6 at a concrete failing SDK. -/
theorem claim_C6_witness :
    syncResources (testConn true) sdkFetchFails ["example.com"] =
      (.error (.getSeedsFailed "scan-123"), []) :=
  claim_C6_fetch_failure (testConn true) sdkFetchFails ["example.com"] () rfl

/-- C7: once the create phase completes without fatal error, reconcile returns
success whatever the delete outcomes are (the removeSeed outcome never reaches
the result); with stale deletion disabled the trace is the create-phase trace,
containing no delete call. -/
theorem claim_C7_delete_best_effort (c : Connector) (sdk : SdkModel) (raw : List String)
    (seeds : List Seed) (idx' : List Seed) (calls : List Call)
    (hok : sdk.getSeeds = .ok seeds)
    (hp : processResources c sdk (workList raw) (buildIndex seeds) = (.ok idx', calls)) :
    (syncResources c sdk raw).1 = .ok () ∧
    (c.deleteStale = false → (syncResources c sdk raw).2 = calls ∧
      ∀ i, Call.delete i ∉ (syncResources c sdk raw).2) := by
  have hbase : syncResources c sdk raw =
      (if ¬ c.deleteStale then ((.ok (), calls) : Except SyncErr Unit × List Call)
       else (.ok (), calls ++ deleteCalls c idx')) := by
    rw [syncResources, hok]
    simp only
    rw [hp]
  constructor
  · rw [hbase]
    by_cases hd : c.deleteStale <;> simp [hd]
  · intro hds
    rw [hbase, if_pos (by simp [hds])]
    refine ⟨rfl, ?_⟩
    intro i
    have := processResources_no_delete c sdk (workList raw) (buildIndex seeds) i
    rw [hp] at this
    simpa using this

/-- Witness for C7: with deletion disabled and a create issued, success with
only the create call in the trace. -/
theorem claim_C7_witness :
    (syncResources (testConn false) (sdkAllOk []) ["a.com"]).1 = .ok () ∧
    (syncResources (testConn false) (sdkAllOk []) ["a.com"]).2 =
      [Call.create "a.com" "Domain" ["seed-tag"]] := by
  have h := claim_C7_delete_best_effort (testConn false) (sdkAllOk []) ["a.com"] [] []
    [Call.create "a.com" "Domain" ["seed-tag"]] rfl rfl
  exact ⟨h.1, ((h.2 rfl).1)⟩

/-! ## Round-trip of IP printing and parsing

Go prints addresses in canonical form (IP.String) and the engine may feed such
strings back into net.ParseIP (getResourceType, re-normalisation). The lemmas
here establish parseIP (ipString g) = some g for well-formed groups. -/

/-- Characters that hexCore emits. -/
theorem hexDigit_emits : ∀ v < 16, isDigit (hexDigit v) ∨ ('a' ≤ hexDigit v ∧ hexDigit v ≤ 'f') := by
  decide

theorem hexVal_hexDigit : ∀ v < 16, hexVal (hexDigit v) = some v := by decide

theorem digVal_decDigit : ∀ v < 10, digVal (decDigit v) = some v := by decide

/-- The fuel in hexCoreAux is irrelevant once at least n. -/
theorem hexCoreAux_stable : ∀ f1 f2 n : Nat, n ≤ f1 → n ≤ f2 →
    hexCoreAux f1 n = hexCoreAux f2 n := by
  intro f1
  induction f1 with
  | zero =>
    intro f2 n h1 _
    have : n = 0 := by omega
    subst this
    cases f2 <;> simp [hexCoreAux]
  | succ a ih =>
    intro f2 n h1 h2
    cases f2 with
    | zero =>
      have : n = 0 := by omega
      subst this
      simp [hexCoreAux]
    | succ b =>
      by_cases hz : n = 0
      · subst hz; simp [hexCoreAux]
      · have hd : n / 16 < n := Nat.div_lt_self (Nat.pos_of_ne_zero hz) (by omega)
        simp only [hexCoreAux, if_neg hz]
        rw [ih b (n / 16) (by omega) (by omega)]

/-- One-step unfolding of hexCore. -/
theorem hexCore_unfold (n : Nat) :
    hexCore n = if n = 0 then [] else hexCore (n / 16) ++ [hexDigit (n % 16)] := by
  by_cases hz : n = 0
  · subst hz; simp [hexCore, hexCoreAux]
  · rw [if_neg hz]
    have hn : ∃ a, n = a + 1 := ⟨n - 1, by omega⟩
    rcases hn with ⟨a, rfl⟩
    show hexCoreAux (a + 1) (a + 1) = _
    simp only [hexCoreAux, if_neg hz]
    rw [hexCoreAux_stable a ((a + 1) / 16) ((a + 1) / 16)
      (by have := Nat.div_lt_self (by omega : 0 < a + 1) (by omega : 1 < 16); omega)
      (le_refl _)]
    rfl

/-- The fuel in decCoreAux is irrelevant once at least n. -/
theorem decCoreAux_stable : ∀ f1 f2 n : Nat, n ≤ f1 → n ≤ f2 →
    decCoreAux f1 n = decCoreAux f2 n := by
  intro f1
  induction f1 with
  | zero =>
    intro f2 n h1 _
    have : n = 0 := by omega
    subst this
    cases f2 <;> simp [decCoreAux]
  | succ a ih =>
    intro f2 n h1 h2
    cases f2 with
    | zero =>
      have : n = 0 := by omega
      subst this
      simp [decCoreAux]
    | succ b =>
      by_cases hz : n = 0
      · subst hz; simp [decCoreAux]
      · have hd : n / 10 < n := Nat.div_lt_self (Nat.pos_of_ne_zero hz) (by omega)
        simp only [decCoreAux, if_neg hz]
        rw [ih b (n / 10) (by omega) (by omega)]

/-- One-step unfolding of decCore. -/
theorem decCore_unfold (n : Nat) :
    decCore n = if n = 0 then [] else decCore (n / 10) ++ [decDigit (n % 10)] := by
  by_cases hz : n = 0
  · subst hz; simp [decCore, decCoreAux]
  · rw [if_neg hz]
    have hn : ∃ a, n = a + 1 := ⟨n - 1, by omega⟩
    rcases hn with ⟨a, rfl⟩
    show decCoreAux (a + 1) (a + 1) = _
    simp only [decCoreAux, if_neg hz]
    rw [decCoreAux_stable a ((a + 1) / 10) ((a + 1) / 10)
      (by have := Nat.div_lt_self (by omega : 0 < a + 1) (by omega : 1 < 10); omega)
      (le_refl _)]
    rfl

/-- hexCore n lists characters of the emitted alphabet only. -/
theorem hexCore_chars (n : Nat) : ∀ c ∈ hexCore n, ∃ v, v < 16 ∧ c = hexDigit v := by
  induction n using Nat.strong_induction_on with
  | _ n ih =>
    rw [hexCore_unfold]
    split
    · simp
    · intro c hc
      rename_i hn
      rcases List.mem_append.mp hc with h1 | h1
      · exact ih (n / 16) (Nat.div_lt_self (Nat.pos_of_ne_zero hn) (by omega)) c h1
      · simp only [List.mem_singleton] at h1
        exact ⟨n % 16, Nat.mod_lt n (by omega), h1⟩

theorem hexChars_chars (n : Nat) : ∀ c ∈ hexChars n, ∃ v, v < 16 ∧ c = hexDigit v := by
  rw [hexChars]
  split
  · intro c hc
    simp only [List.mem_singleton] at hc
    exact ⟨0, by omega, by simp [hc, hexDigit, decDigit]⟩
  · exact hexCore_chars n

/-- decCore n lists decimal digit characters only. -/
theorem decCore_chars (n : Nat) : ∀ c ∈ decCore n, ∃ v, v < 10 ∧ c = decDigit v := by
  induction n using Nat.strong_induction_on with
  | _ n ih =>
    rw [decCore_unfold]
    split
    · simp
    · intro c hc
      rename_i hn
      rcases List.mem_append.mp hc with h1 | h1
      · exact ih (n / 10) (Nat.div_lt_self (Nat.pos_of_ne_zero hn) (by omega)) c h1
      · simp only [List.mem_singleton] at h1
        exact ⟨n % 10, Nat.mod_lt n (by omega), h1⟩

theorem decChars_chars (n : Nat) : ∀ c ∈ decChars n, ∃ v, v < 10 ∧ c = decDigit v := by
  rw [decChars]
  split
  · intro c hc
    simp only [List.mem_singleton] at hc
    exact ⟨0, by omega, hc⟩
  · exact decCore_chars n

theorem hexCore_ne_nil (n : Nat) (hn : n ≠ 0) : hexCore n ≠ [] := by
  rw [hexCore_unfold]
  split
  · exact absurd ‹n = 0› hn
  · simp

theorem hexChars_ne_nil (n : Nat) : hexChars n ≠ [] := by
  rw [hexChars]
  split
  · simp
  · exact hexCore_ne_nil n (by assumption)

theorem decChars_ne_nil (n : Nat) : decChars n ≠ [] := by
  rw [decChars]
  split
  · simp
  · rw [decCore_unfold]
    split
    · simp_all
    · simp

/-- Folding over an appended digit. -/
theorem hexAccum_append (a : Nat) (ds : List Char) (c : Char) :
    hexAccum a (ds ++ [c]) = (hexAccum a ds) * 16 + (hexVal c).getD 0 := by
  simp [hexAccum, List.foldl_append]

theorem decAccum_append (a : Nat) (ds : List Char) (c : Char) :
    decAccum a (ds ++ [c]) = (decAccum a ds) * 10 + (digVal c).getD 0 := by
  simp [decAccum, List.foldl_append]

/-- Digit accumulation never decreases the accumulator. -/
theorem hexAccum_ge (a : Nat) (ds : List Char) : a ≤ hexAccum a ds := by
  induction ds generalizing a with
  | nil => simp [hexAccum]
  | cons c rest ih =>
    calc a ≤ a * 16 + (hexVal c).getD 0 := by omega
    _ ≤ hexAccum (a * 16 + (hexVal c).getD 0) rest := ih _
    _ = hexAccum a (c :: rest) := by simp [hexAccum]

/-- Value of the printed hex digits of n, with the length exponent. -/
theorem hexAccum_hexCore (n : Nat) :
    ∀ a, hexAccum a (hexCore n) = a * 16 ^ (hexCore n).length + n := by
  induction n using Nat.strong_induction_on with
  | _ n ih =>
    intro a
    rw [hexCore_unfold]
    split
    · rename_i hz
      simp [hexAccum, hz]
    · rename_i hn
      have hlt : n / 16 < n := Nat.div_lt_self (Nat.pos_of_ne_zero hn) (by omega)
      rw [hexAccum_append, ih (n / 16) hlt a, hexVal_hexDigit (n % 16) (Nat.mod_lt n (by omega))]
      simp only [Option.getD_some, List.length_append, List.length_singleton]
      rw [pow_succ]
      have : 16 * (n / 16) + n % 16 = n := Nat.div_add_mod n 16
      ring_nf
      omega

theorem hexAccum_hexChars (n : Nat) : hexAccum 0 (hexChars n) = n := by
  rw [hexChars]
  split
  · rename_i hz
    subst hz
    decide
  · rw [hexAccum_hexCore]
    simp

theorem hexDigit_ne : ∀ v < 16, hexDigit v ≠ ':' ∧ hexDigit v ≠ '.' ∧ hexDigit v ≠ '%' ∧
    hexDigit v ≠ '[' ∧ hexDigit v ≠ ']' := by decide

theorem decDigit_ne : ∀ v < 10, decDigit v ≠ '.' ∧ decDigit v ≠ ':' ∧ decDigit v ≠ '%' ∧
    decDigit v ≠ '[' ∧ decDigit v ≠ ']' := by decide

/-- The group machine consumes a run of hex digits whose value fits a group. -/
theorem parseV6_digits (ds : List Char) :
    ∀ (rest : List Char) (curr nd : Nat) (gchars : List Char) (groups : List Nat)
      (ell : Option Nat),
    (∀ c ∈ ds, (hexVal c).isSome) → hexAccum curr ds ≤ 0xffff →
    parseV6 (ds ++ rest) curr nd gchars groups ell =
      parseV6 rest (hexAccum curr ds) (nd + ds.length) (gchars ++ ds) groups ell := by
  induction ds with
  | nil =>
    intro rest curr nd gchars groups ell _ _
    simp [hexAccum]
  | cons c ds' ih =>
    intro rest curr nd gchars groups ell hds hb
    obtain ⟨v, hv⟩ := Option.isSome_iff_exists.mp (hds c (List.mem_cons_self c ds'))
    have hacc : hexAccum curr (c :: ds') = hexAccum (curr * 16 + v) ds' := by
      simp [hexAccum, hv]
    have hle : curr * 16 + v ≤ 0xffff := by
      have := hexAccum_ge (curr * 16 + v) ds'
      rw [hacc] at hb
      omega
    rw [List.cons_append]
    rw [parseV6]
    rw [hv]
    simp only
    rw [if_neg (by omega)]
    rw [ih rest (curr * 16 + v) (nd + 1) (gchars ++ [c]) groups ell
      (fun d hd => hds d (List.mem_cons_of_mem c hd))
      (by rw [← hacc]; exact hb)]
    rw [hacc]
    congr 1
    · simp [List.length_cons]
      omega
    · simp
    all_goals
      intros
      subst_vars
      rw [show hexVal ':' = none from by decide] at hv
      exact Option.noConfusion hv

/-- Shape of a glued group list: it starts with a hex digit character. -/
theorem glueGroups_cons_shape (x : Nat) (xs : List Nat) :
    ∃ c2 rest2, glueGroups (x :: xs) = c2 :: rest2 ∧ c2 ≠ ':' ∧ (hexVal c2).isSome := by
  have hne := hexChars_ne_nil x
  rcases hh : hexChars x with _ | ⟨c2, tl⟩
  · exact absurd hh hne
  · have hc2 : c2 ∈ hexChars x := by rw [hh]; exact List.mem_cons_self c2 tl
    rcases hexChars_chars x c2 hc2 with ⟨v, hv, hcv⟩
    have h1 : c2 ≠ ':' := hcv ▸ (hexDigit_ne v hv).1
    have h2 : (hexVal c2).isSome := by rw [hcv, hexVal_hexDigit v hv]; rfl
    cases xs with
    | nil => exact ⟨c2, tl, by simp [glueGroups, hh], h1, h2⟩
    | cons y ys =>
      exact ⟨c2, tl ++ ':' :: glueGroups (y :: ys), by simp [glueGroups, hh], h1, h2⟩

/-- Main walk: parsing a glued group list consumes it entirely, appending the
groups, provided everything fits in eight groups. -/
theorem parseV6_glue (gs : List Nat) :
    ∀ (groups : List Nat) (ell : Option Nat), gs ≠ [] → (∀ g ∈ gs, g ≤ 0xffff) →
    groups.length + gs.length ≤ 8 →
    parseV6 (glueGroups gs) 0 0 [] groups ell = some (groups ++ gs, ell) := by
  induction gs with
  | nil => intro _ _ h; exact absurd rfl h
  | cons g gs' ih =>
    intro groups ell _ hbound hlen
    have hg : g ≤ 0xffff := hbound g (List.mem_cons_self g gs')
    have hdigs : ∀ c ∈ hexChars g, (hexVal c).isSome := by
      intro c hc
      rcases hexChars_chars g c hc with ⟨v, hv, hcv⟩
      rw [hcv, hexVal_hexDigit v hv]
      rfl
    have hvalue : hexAccum 0 (hexChars g) = g := hexAccum_hexChars g
    have hk : ∃ k, (hexChars g).length = k + 1 := by
      rcases hh : hexChars g with _ | ⟨c0, tl⟩
      · exact absurd hh (hexChars_ne_nil g)
      · exact ⟨tl.length, by simp⟩
    rcases hk with ⟨k, hk⟩
    cases gs' with
    | nil =>
      have hsplit : glueGroups [g] = hexChars g ++ [] := by simp [glueGroups]
      rw [hsplit, parseV6_digits (hexChars g) [] 0 0 [] groups ell hdigs
        (by rw [hvalue]; exact hg)]
      rw [hvalue, hk]
      simp only [Nat.zero_add, List.nil_append]
      rw [parseV6, if_neg (by omega)]
    | cons g2 t =>
      have hglue : glueGroups (g :: g2 :: t) = hexChars g ++ ':' :: glueGroups (g2 :: t) := rfl
      rw [hglue,
        parseV6_digits (hexChars g) (':' :: glueGroups (g2 :: t)) 0 0 [] groups ell hdigs
          (by rw [hvalue]; exact hg),
        hvalue, hk]
      simp only [Nat.zero_add, List.nil_append]
      rcases glueGroups_cons_shape g2 t with ⟨c2, rest2, hshape, hcne, hcsome⟩
      rw [hshape]
      rw [parseV6]
      · rw [if_neg (by omega : ¬(k + 1 = 0))]
        rw [if_neg (by
          simp only [List.length_append, List.length_singleton, List.length_cons, List.length_nil] at hlen ⊢
          omega)]
        rw [← hshape]
        rw [ih (groups ++ [g]) ell (by simp) (fun x hx => hbound x (List.mem_cons_of_mem g hx))
          (by simp [List.length_cons] at hlen ⊢; omega)]
        simp
      · exact hcne

/-- Walk ending at a double colon: parsing the glued groups followed by "::"
reaches the ellipsis branch with all groups appended. -/
theorem parseV6_glue_colon2 (gs : List Nat) :
    ∀ (rest2 : List Char) (groups : List Nat) (ell : Option Nat),
    gs ≠ [] → (∀ g ∈ gs, g ≤ 0xffff) → groups.length + gs.length ≤ 8 →
    parseV6 (glueGroups gs ++ ':' :: ':' :: rest2) 0 0 [] groups ell =
      (if ell.isSome then none
       else if rest2 = [] then some (groups ++ gs, some (groups ++ gs).length)
       else if (groups ++ gs).length ≥ 8 then none
       else parseV6 rest2 0 0 [] (groups ++ gs) (some (groups ++ gs).length)) := by
  induction gs with
  | nil => intro _ _ _ h; exact absurd rfl h
  | cons g gs' ih =>
    intro rest2 groups ell _ hbound hlen
    have hg : g ≤ 0xffff := hbound g (List.mem_cons_self g gs')
    have hdigs : ∀ c ∈ hexChars g, (hexVal c).isSome := by
      intro c hc
      rcases hexChars_chars g c hc with ⟨v, hv, hcv⟩
      rw [hcv, hexVal_hexDigit v hv]
      rfl
    have hvalue : hexAccum 0 (hexChars g) = g := hexAccum_hexChars g
    have hk : ∃ k, (hexChars g).length = k + 1 := by
      rcases hh : hexChars g with _ | ⟨c0, tl⟩
      · exact absurd hh (hexChars_ne_nil g)
      · exact ⟨tl.length, by simp⟩
    rcases hk with ⟨k, hk⟩
    cases gs' with
    | nil =>
      have hsplit : glueGroups [g] ++ ':' :: ':' :: rest2 =
          hexChars g ++ ':' :: ':' :: rest2 := by simp [glueGroups]
      rw [hsplit, parseV6_digits (hexChars g) (':' :: ':' :: rest2) 0 0 [] groups ell hdigs
        (by rw [hvalue]; exact hg), hvalue, hk]
      simp only [Nat.zero_add, List.nil_append]
      rw [parseV6, if_neg (by omega : ¬(k + 1 = 0))]
    | cons g2 t =>
      have hglue : glueGroups (g :: g2 :: t) ++ ':' :: ':' :: rest2 =
          hexChars g ++ ':' :: (glueGroups (g2 :: t) ++ ':' :: ':' :: rest2) := by
        show (hexChars g ++ ':' :: glueGroups (g2 :: t)) ++ ':' :: ':' :: rest2 = _
        simp
      rw [hglue,
        parseV6_digits (hexChars g) (':' :: (glueGroups (g2 :: t) ++ ':' :: ':' :: rest2))
          0 0 [] groups ell hdigs (by rw [hvalue]; exact hg),
        hvalue, hk]
      simp only [Nat.zero_add, List.nil_append]
      rcases glueGroups_cons_shape g2 t with ⟨c2, rest3, hshape, hcne, hcsome⟩
      rw [show glueGroups (g2 :: t) ++ ':' :: ':' :: rest2 = c2 :: (rest3 ++ ':' :: ':' :: rest2) by
        rw [hshape]; simp]
      rw [parseV6]
      · rw [if_neg (by omega : ¬(k + 1 = 0))]
        rw [if_neg (by
          simp only [List.length_append, List.length_singleton, List.length_cons,
            List.length_nil] at hlen ⊢
          omega)]
        rw [show (c2 :: (rest3 ++ ':' :: ':' :: rest2) : List Char) =
            glueGroups (g2 :: t) ++ ':' :: ':' :: rest2 by rw [hshape]; simp]
        rw [ih rest2 (groups ++ [g]) ell (by simp)
          (fun x hx => hbound x (List.mem_cons_of_mem g hx))
          (by simp [List.length_cons] at hlen ⊢; omega)]
        simp only [List.append_assoc, List.cons_append, List.nil_append]
      · exact hcne

/-- The run fold returns its initial value or a list member. -/
theorem foldl_best_mem (xs : List (Nat × Nat)) (init : Nat × Nat) :
    xs.foldl (fun b c => if c.2 > b.2 then c else b) init = init ∨
      xs.foldl (fun b c => if c.2 > b.2 then c else b) init ∈ xs := by
  induction xs generalizing init with
  | nil => exact Or.inl rfl
  | cons x rest ih =>
    simp only [List.foldl_cons]
    rcases ih (if x.2 > init.2 then x else init) with h | h
    · rw [h]
      split
      · exact Or.inr (List.mem_cons_self x rest)
      · exact Or.inl rfl
    · exact Or.inr (List.mem_cons_of_mem x h)

/-- Facts recovered from a successful bestRun: position in range, run length is
runLen at that position, and at least two. -/
theorem bestRun_spec (g : List Nat) (i l : Nat) (h : bestRun g = some (i, l)) :
    i < g.length ∧ l = runLen (g.drop i) ∧ 2 ≤ l := by
  simp only [bestRun] at h
  split at h
  · rename_i hge
    simp only [Option.some.injEq] at h
    rw [h] at hge
    rcases foldl_best_mem (((List.range g.length).map fun i => (i, runLen (g.drop i)))) (0, 0) with
      hf | hf
    · rw [h] at hf
      have : l = 0 := congrArg Prod.snd hf
      simp only at hge
      omega
    · rw [h] at hf
      rcases List.mem_map.mp hf with ⟨j, hj, hji⟩
      have h1 : j = i := congrArg Prod.fst hji
      have h2 : runLen (g.drop j) = l := congrArg Prod.snd hji
      subst h1
      simp only at hge
      exact ⟨List.mem_range.mp hj, h2.symm, hge⟩
  · exact absurd h (by simp)

/-- A zero run is literally a block of zeros. -/
theorem runLen_take (xs : List Nat) : xs.take (runLen xs) = List.replicate (runLen xs) 0 := by
  induction xs with
  | nil => simp [runLen]
  | cons x rest ih =>
    by_cases hx : x = 0
    · subst hx
      rw [show runLen (0 :: rest) = runLen rest + 1 from rfl]
      simp [List.replicate_succ, ih]
    · rw [show runLen (x :: rest) = 0 by cases x with | zero => exact absurd rfl hx | succ a => rfl]
      simp

theorem runLen_le_length (xs : List Nat) : runLen xs ≤ xs.length := by
  induction xs with
  | nil => simp [runLen]
  | cons x rest ih =>
    cases x with
    | zero => rw [show runLen (0 :: rest) = runLen rest + 1 from rfl]; simp; omega
    | succ a => rw [show runLen ((a + 1) :: rest) = 0 from rfl]; simp

/-- Decomposition of a list along its best zero run. -/
theorem bestRun_decomp (g : List Nat) (i l : Nat) (h : bestRun g = some (i, l)) :
    g = g.take i ++ List.replicate l 0 ++ g.drop (i + l) ∧ i + l ≤ g.length ∧ 2 ≤ l := by
  rcases bestRun_spec g i l h with ⟨hi, hl, h2⟩
  have hlen : i + l ≤ g.length := by
    have := runLen_le_length (g.drop i)
    rw [← hl] at this
    simp only [List.length_drop] at this
    omega
  refine ⟨?_, hlen, h2⟩
  subst hl
  conv_lhs => rw [← List.take_append_drop i g]
  rw [List.append_assoc]
  congr 1
  conv_lhs => rw [← List.take_append_drop (runLen (g.drop i)) (g.drop i)]
  congr 1
  · exact runLen_take _
  · rw [List.drop_drop]

/-! ## Round-trip of dotted-quad printing and parsing -/

set_option maxRecDepth 10000 in
/-- Printing an octet and parsing it back is the identity. -/
theorem octetVal_decChars : ∀ n, n < 256 → octetVal (decChars n) = some n := by decide

/-- A digit character is determined by its value. -/
theorem decDigit_digVal (c : Char) (v : Nat) (h : digVal c = some v) :
    decDigit v = c ∧ v < 10 := by
  simp only [digVal] at h
  split at h
  · rename_i hd
    simp only [isDigit, Bool.and_eq_true, decide_eq_true_eq] at hd
    simp only [Option.some.injEq] at h
    constructor
    · rw [decDigit, ← h, show 48 + (c.toNat - 48) = c.toNat by omega]
      exact Char.ofNat_toNat c
    · omega
  · exact absurd h (by simp)

/-- Facts recovered from a successful run of the octet loop. -/
theorem octetVal_go_spec (ds : List Char) :
    ∀ (acc n : Nat), octetVal.go ds acc = some n →
      n = decAccum acc ds ∧ (∀ c ∈ ds, (digVal c).isSome) ∧ (ds ≠ [] → n ≤ 255) := by
  induction ds with
  | nil =>
    intro acc n h
    simp only [octetVal.go, Option.some.injEq] at h
    exact ⟨by simp [decAccum, h], by simp, by simp⟩
  | cons c ds' ih =>
    intro acc n h
    simp only [octetVal.go] at h
    rcases hd : digVal c with _ | v
    · rw [hd] at h; exact absurd h (by simp)
    · rw [hd] at h
      simp only at h
      split at h
      · exact absurd h (by simp)
      · rename_i hle
        rcases ih (acc * 10 + v) n h with ⟨h1, h2, h3⟩
        refine ⟨by rw [h1]; simp [decAccum, hd], ?_, ?_⟩
        · intro x hx
          rcases List.mem_cons.mp hx with rfl | hm
          · simp [hd]
          · exact h2 x hm
        · intro _
          rcases hds : ds' with _ | ⟨e, es⟩
          · rw [hds] at h1
            simp only [decAccum, List.foldl_nil] at h1
            omega
          · exact h3 (by rw [hds]; simp)

/-- Digit accumulation never decreases the accumulator. -/
theorem decAccum_ge (a : Nat) (ds : List Char) : a ≤ decAccum a ds := by
  induction ds generalizing a with
  | nil => simp [decAccum]
  | cons c rest ih =>
    calc a ≤ a * 10 + (digVal c).getD 0 := by omega
    _ ≤ decAccum (a * 10 + (digVal c).getD 0) rest := ih _
    _ = decAccum a (c :: rest) := by simp [decAccum]

/-- A nonempty digit string with no leading zero prints back from its value. -/
theorem decChars_decAccum (p : List Char) (hne : p ≠ [])
    (hdig : ∀ c ∈ p, (digVal c).isSome) (hlead : 1 < p.length → ¬ p.head? = some '0') :
    decChars (decAccum 0 p) = p := by
  induction p using List.reverseRecOn with
  | nil => exact absurd rfl hne
  | append_singleton q d ihq =>
    obtain ⟨vd, hvd⟩ := Option.isSome_iff_exists.mp (hdig d (by simp))
    rcases decDigit_digVal d vd hvd with ⟨hdd, hvd10⟩
    rcases hq : q with _ | ⟨c0, q'⟩
    · simp only [List.nil_append]
      rw [show decAccum 0 [d] = vd by simp [decAccum, hvd]]
      rw [decChars]
      by_cases hz : vd = 0
      · rw [if_pos hz, ← hdd, hz]
        rfl
      · rw [if_neg hz, decCore_unfold, if_neg hz,
          Nat.div_eq_of_lt hvd10, Nat.mod_eq_of_lt hvd10]
        rw [show decCore 0 = [] from rfl, hdd]
        simp
    · subst hq
      have hqne : (c0 :: q') ≠ [] := by simp
      have hqdig : ∀ c ∈ c0 :: q', (digVal c).isSome := by
        intro c hc
        exact hdig c (List.mem_append_left _ hc)
      have hhead : ¬ (c0 :: q').head? = some '0' := by
        apply hlead
        simp only [List.length_append, List.length_cons, List.length_singleton]
        omega
      have hih : decChars (decAccum 0 (c0 :: q')) = c0 :: q' := by
        apply ihq hqne hqdig
        intro _
        simpa using hhead
      obtain ⟨v0, hv0⟩ := Option.isSome_iff_exists.mp (hqdig c0 (by simp))
      have hc0 : c0 ≠ '0' := by
        intro he
        exact hhead (by rw [he]; rfl)
      have hv0pos : 1 ≤ v0 := by
        simp only [digVal] at hv0
        split at hv0
        · rename_i hd0
          simp only [isDigit, Bool.and_eq_true, decide_eq_true_eq] at hd0
          simp only [Option.some.injEq] at hv0
          rcases Nat.lt_or_ge 1 (c0.toNat - 48) with h | h
          · omega
          · by_cases hz : c0.toNat - 48 = 0
            · exfalso
              apply hc0
              have : c0.toNat = 48 := by omega
              rw [← Char.ofNat_toNat c0, this]
            · omega
        · exact absurd hv0 (by simp)
      have hvq : 1 ≤ decAccum 0 (c0 :: q') := by
        calc 1 ≤ v0 := hv0pos
        _ = 0 * 10 + (digVal c0).getD 0 := by simp [hv0]
        _ ≤ decAccum (0 * 10 + (digVal c0).getD 0) q' := decAccum_ge _ q'
        _ = decAccum 0 (c0 :: q') := by simp [decAccum]
      rw [decAccum_append, hvd]
      simp only [Option.getD_some]
      set vq := decAccum 0 (c0 :: q') with hvqdef
      rw [decChars, if_neg (by omega), decCore_unfold, if_neg (by omega)]
      have hdiv : (vq * 10 + vd) / 10 = vq := by omega
      have hmod : (vq * 10 + vd) % 10 = vd := by omega
      rw [hdiv, hmod, hdd]
      have : decCore vq = c0 :: q' := by
        rw [← hih, decChars, if_neg (by omega)]
      rw [this]

/-- Parsing an octet and printing its value restores the digit string. -/
theorem octetVal_inv (p : List Char) (n : Nat) (h : octetVal p = some n) :
    n ≤ 255 ∧ decChars n = p := by
  rcases hp : p with _ | ⟨c, rest⟩
  · rw [hp] at h; exact absurd h (by simp [octetVal])
  · rw [hp] at h
    simp only [octetVal] at h
    split at h
    · exact absurd h (by simp)
    · rename_i hguard
      rcases octetVal_go_spec (c :: rest) 0 n h with ⟨h1, h2, h3⟩
      refine ⟨h3 (by simp), ?_⟩
      rw [h1]
      apply decChars_decAccum (c :: rest) (by simp) h2
      intro hlen hhd
      apply hguard
      simp only [List.head?_cons, Option.some.injEq] at hhd
      exact ⟨by simpa using hlen, hhd⟩

/-- splitOnChar after a separator-free part. -/
theorem splitOnChar_append (c : Char) (xs rest : List Char) (hx : c ∉ xs) :
    splitOnChar c (xs ++ c :: rest) = xs :: splitOnChar c rest := by
  induction xs with
  | nil => simp [splitOnChar]
  | cons x xs' ih =>
    have hxc : x ≠ c := fun he => hx (he ▸ List.mem_cons_self x xs')
    have htail := ih (fun hm => hx (List.mem_cons_of_mem x hm))
    simp only [List.cons_append, splitOnChar, if_neg hxc, List.append_eq]
    rw [htail]

/-- splitOnChar of a separator-free list. -/
theorem splitOnChar_nosep (c : Char) (xs : List Char) (hx : c ∉ xs) :
    splitOnChar c xs = [xs] := by
  induction xs with
  | nil => rfl
  | cons x xs' ih =>
    have hxc : x ≠ c := fun he => hx (he ▸ List.mem_cons_self x xs')
    have htail := ih (fun hm => hx (List.mem_cons_of_mem x hm))
    simp [splitOnChar, htail, if_neg hxc]

/-- splitOnChar partitions: rejoining restores the input. -/
theorem splitOnChar_join (c : Char) (cs : List Char) :
    joinWith c (splitOnChar c cs) = cs := by
  induction cs with
  | nil => rfl
  | cons x xs ih =>
    have hsh : ∃ h t, splitOnChar c xs = h :: t := by
      cases hs : splitOnChar c xs with
      | nil =>
        cases xs with
        | nil => simp [splitOnChar] at hs
        | cons y ys =>
          simp only [splitOnChar] at hs
          split at hs
          · exact absurd hs (by simp)
          · split at hs <;> simp_all
      | cons h t => exact ⟨h, t, rfl⟩
    rcases hsh with ⟨h, t, hs⟩
    rw [hs] at ih
    by_cases hx : x = c
    · have hstep : splitOnChar c (x :: xs) = [] :: h :: t := by
        simp only [splitOnChar, hs, if_pos hx]
      rw [hstep]
      show [] ++ c :: joinWith c (h :: t) = x :: xs
      rw [ih, hx]
      rfl
    · have hstep : splitOnChar c (x :: xs) = (x :: h) :: t := by
        simp only [splitOnChar, hs, if_neg hx]
      rw [hstep]
      cases t with
      | nil =>
        show x :: h = x :: xs
        rw [show h = xs from ih]
      | cons h2 t2 =>
        show x :: (h ++ c :: joinWith c (h2 :: t2)) = x :: xs
        rw [show h ++ c :: joinWith c (h2 :: t2) = xs from ih]

/-- Parts produced by splitOnChar do not contain the separator. -/
theorem splitOnChar_parts (c : Char) (cs : List Char) :
    ∀ p ∈ splitOnChar c cs, c ∉ p := by
  induction cs with
  | nil => intro p hp; simp only [splitOnChar, List.mem_singleton] at hp; simp [hp]
  | cons x xs ih =>
    intro p hp
    simp only [splitOnChar] at hp
    split at hp
    · rcases List.mem_cons.mp hp with rfl | hm
      · simp
      · exact ih p hm
    · rename_i hx
      rcases hs : splitOnChar c xs with _ | ⟨h, t⟩
      · rw [hs] at hp
        simp only [List.mem_singleton] at hp
        subst hp
        simp only [List.mem_singleton]
        exact fun he => hx he.symm
      · rw [hs] at hp
        rcases List.mem_cons.mp hp with rfl | hm
        · intro hce
          rcases List.mem_cons.mp hce with he | hce2
          · exact hx he.symm
          · exact ih h (by rw [hs]; exact List.mem_cons_self h t) hce2
        · exact ih p (by rw [hs]; exact List.mem_cons_of_mem h hm)



/-- Characterization of a successful mapM over octetVal. -/
theorem mapM_octetVal_some (P : List (List Char)) :
    ∀ L : List Nat, P.mapM octetVal = some L →
      P.length = L.length ∧ ∀ pr ∈ P.zip L, octetVal pr.1 = some pr.2 := by
  induction P with
  | nil =>
    intro L h
    rw [List.mapM_nil] at h
    simp only [Option.pure_def, Option.some.injEq] at h
    subst h
    simp
  | cons p ps ih =>
    intro L h
    rw [List.mapM_cons] at h
    simp only [Option.pure_def, Option.bind_eq_bind, Option.bind_eq_some,
      Option.some.injEq] at h
    rcases h with ⟨y, hy, ys, hys, hL⟩
    subst hL
    rcases ih ys hys with ⟨hlen, hall⟩
    refine ⟨by simp [hlen], ?_⟩
    intro pr hpr
    simp only [List.zip_cons_cons, List.mem_cons] at hpr
    rcases hpr with h1 | h1
    · rw [h1]; exact hy
    · exact hall pr h1

/-- A successful parseIPv4Bytes comes from exactly four octet parts. -/
theorem parseIPv4Bytes_spec (cs : List Char) (a b c d : Nat)
    (h : parseIPv4Bytes cs = some (a, b, c, d)) :
    ∃ p1 p2 p3 p4, splitOnChar '.' cs = [p1, p2, p3, p4] ∧
      octetVal p1 = some a ∧ octetVal p2 = some b ∧
      octetVal p3 = some c ∧ octetVal p4 = some d := by
  unfold parseIPv4Bytes at h
  rcases hm : (splitOnChar '.' cs).mapM octetVal with _ | L
  · rw [hm] at h; exact absurd h (by simp)
  rw [hm] at h
  rcases L with _ | ⟨x1, L⟩; · simp at h
  rcases L with _ | ⟨x2, L⟩; · simp at h
  rcases L with _ | ⟨x3, L⟩; · simp at h
  rcases L with _ | ⟨x4, L⟩; · simp at h
  rcases L with _ | ⟨x5, L⟩
  swap
  · simp at h
  simp only [Option.some.injEq, Prod.mk.injEq] at h
  obtain ⟨rfl, rfl, rfl, rfl⟩ := h
  rcases mapM_octetVal_some _ _ hm with ⟨hlen, hall⟩
  rcases hP : splitOnChar '.' cs with _ | ⟨p1, P⟩
  · rw [hP] at hlen; simp at hlen
  rcases P with _ | ⟨p2, P⟩
  · rw [hP] at hlen; simp at hlen
  rcases P with _ | ⟨p3, P⟩
  · rw [hP] at hlen; simp at hlen
  rcases P with _ | ⟨p4, P⟩
  · rw [hP] at hlen; simp at hlen
  rcases P with _ | ⟨p5, P⟩
  swap
  · rw [hP] at hlen; simp at hlen
  rw [hP] at hall
  exact ⟨p1, p2, p3, p4, rfl,
    hall (p1, x1) (by simp), hall (p2, x2) (by simp),
    hall (p3, x3) (by simp), hall (p4, x4) (by simp)⟩

/-- Octet values produced by parseIPv4Bytes are bytes. -/
theorem parseIPv4Bytes_bounds (cs : List Char) (a b c d : Nat)
    (h : parseIPv4Bytes cs = some (a, b, c, d)) :
    a ≤ 255 ∧ b ≤ 255 ∧ c ≤ 255 ∧ d ≤ 255 := by
  rcases parseIPv4Bytes_spec cs a b c d h with ⟨p1, p2, p3, p4, _, h1, h2, h3, h4⟩
  exact ⟨(octetVal_inv _ _ h1).1, (octetVal_inv _ _ h2).1,
    (octetVal_inv _ _ h3).1, (octetVal_inv _ _ h4).1⟩

/-- Invariant of the parseV6 machine: bounded groups, at most eight of them,
and an ellipsis index never past the end. -/
theorem parseV6_inv : ∀ (cs : List Char) (curr nd : Nat) (gchars : List Char)
    (groups : List Nat) (ell : Option Nat),
    (∀ (groups' : List Nat) (ell' : Option Nat),
    (∀ x ∈ groups, x ≤ 0xffff) → curr ≤ 0xffff → groups.length ≤ 7 →
    (∀ e, ell = some e → e ≤ groups.length) →
    parseV6 cs curr nd gchars groups ell = some (groups', ell') →
    (∀ x ∈ groups', x ≤ 0xffff) ∧ groups'.length ≤ 8 ∧
      (∀ e, ell' = some e → e ≤ groups'.length)) := by
  intro cs curr nd gchars groups ell
  induction cs, curr, nd, gchars, groups, ell using parseV6.induct with
  | case1 curr gchars groups ell =>
    intro groups' ell' _ _ _ _ hp
    simp [parseV6] at hp
  | case2 curr nd gchars groups ell hnd =>
    intro groups' ell' hb hc hl he hp
    rw [parseV6, if_neg hnd] at hp
    simp only [Option.some.injEq, Prod.mk.injEq] at hp
    obtain ⟨rfl, rfl⟩ := hp
    refine ⟨?_, by simp; omega, ?_⟩
    · intro x hx
      rcases List.mem_append.mp hx with h1 | h1
      · exact hb x h1
      · simp only [List.mem_singleton] at h1; omega
    · intro e hee
      have := he e hee
      simp only [List.length_append, List.length_singleton]
      omega
  | case3 curr nd gchars groups ell =>
    intro groups' ell' _ _ _ _ hp
    simp [parseV6] at hp
  | case4 rest2 curr gchars groups ell =>
    intro groups' ell' _ _ _ _ hp
    simp [parseV6] at hp
  | case5 rest2 curr nd gchars groups ell hnd hsome =>
    intro groups' ell' _ _ _ _ hp
    rw [parseV6, if_neg hnd, if_pos hsome] at hp
    exact absurd hp (by simp)
  | case6 curr nd gchars groups ell hnd hsome =>
    intro groups' ell' hb hc hl he hp
    rw [parseV6, if_neg hnd, if_neg hsome, if_pos rfl] at hp
    simp only [Option.some.injEq, Prod.mk.injEq] at hp
    obtain ⟨rfl, rfl⟩ := hp
    refine ⟨?_, by simp; omega, ?_⟩
    · intro x hx
      rcases List.mem_append.mp hx with h1 | h1
      · exact hb x h1
      · simp only [List.mem_singleton] at h1; omega
    · intro e hee
      simp only [Option.some.injEq] at hee
      omega
  | case7 rest2 curr nd gchars groups ell hnd hsome G hr2 hge =>
    intro groups' ell' _ _ _ _ hp
    rw [parseV6, if_neg hnd, if_neg hsome, if_neg hr2, if_pos hge] at hp
    exact absurd hp (by simp)
  | case8 rest2 curr nd gchars groups ell hnd hsome G hr2 hge ih =>
    intro groups' ell' hb hc hl he hp
    rw [parseV6, if_neg hnd, if_neg hsome, if_neg hr2, if_neg hge] at hp
    have hge8 : ¬ (groups ++ [curr]).length ≥ 8 := hge
    simp only [List.length_append, List.length_singleton, ge_iff_le, not_le] at hge8
    refine ih groups' ell' ?_ (by omega) ?_ ?_ hp
    · show ∀ x ∈ groups ++ [curr], x ≤ 0xffff
      intro x hx
      rcases List.mem_append.mp hx with h1 | h1
      · exact hb x h1
      · simp only [List.mem_singleton] at h1; omega
    · show (groups ++ [curr]).length ≤ 7
      simp only [List.length_append, List.length_singleton]
      omega
    · intro e hee
      injection hee with h2
      exact le_of_eq h2.symm
  | case9 c2 rest2 curr gchars groups ell hne =>
    intro groups' ell' _ _ _ _ hp
    rw [parseV6] at hp
    · simp at hp
    · exact hne
  | case10 c2 rest2 curr nd gchars groups ell hne hnd G hge =>
    intro groups' ell' _ _ _ _ hp
    rw [parseV6] at hp
    · rw [if_neg hnd, if_pos hge] at hp
      exact absurd hp (by simp)
    · exact hne
  | case11 c2 rest2 curr nd gchars groups ell hne hnd G hge ih =>
    intro groups' ell' hb hc hl he hp
    rw [parseV6] at hp
    · rw [if_neg hnd, if_neg hge] at hp
      have hge8 : ¬ (groups ++ [curr]).length ≥ 8 := hge
      simp only [List.length_append, List.length_singleton, ge_iff_le, not_le] at hge8
      refine ih groups' ell' ?_ (by omega) ?_ ?_ hp
      · show ∀ x ∈ groups ++ [curr], x ≤ 0xffff
        intro x hx
        rcases List.mem_append.mp hx with h1 | h1
        · exact hb x h1
        · simp only [List.mem_singleton] at h1; omega
      · show (groups ++ [curr]).length ≤ 7
        simp only [List.length_append, List.length_singleton]
        omega
      · intro e hee
        have := he e hee
        show e ≤ (groups ++ [curr]).length
        simp only [List.length_append, List.length_singleton]
        omega
    · exact hne
  | case12 c rest curr nd gchars groups ell hA hB hC v hv A hgt =>
    intro groups' ell' _ _ _ _ hp
    rw [parseV6] at hp
    · rw [hv] at hp
      simp only [show curr * 16 + v > 0xffff from hgt, if_true] at hp
      exact absurd hp (by simp)
    · exact hA
    · exact hB
    · exact hC
  | case13 c rest curr nd gchars groups ell hA hB hC v hv A hgt ih =>
    intro groups' ell' hb hc hl he hp
    rw [parseV6] at hp
    · rw [hv] at hp
      have hgt' : ¬ curr * 16 + v > 0xffff := hgt
      simp only [hgt', if_false] at hp
      have hle : curr * 16 + v ≤ 0xffff := by omega
      exact ih groups' ell' hb hle hl he hp
    · exact hA
    · exact hB
    · exact hC
  | case14 rest curr gchars groups ell hA hB hC hv =>
    intro groups' ell' _ _ _ _ hp
    rw [parseV6] at hp
    · rw [hv] at hp
      simp at hp
    · exact hA
    · exact hB
    · exact hC
  | case15 rest curr nd gchars groups ell hnd hcond hA hB hC hv =>
    intro groups' ell' _ _ _ _ hp
    rw [parseV6] at hp
    · rw [hv] at hp
      simp [hnd, hcond] at hp
    · exact hA
    · exact hB
    · exact hC
  | case16 rest curr nd gchars groups ell hnd hcond hgt hA hB hC hv =>
    intro groups' ell' _ _ _ _ hp
    rw [parseV6] at hp
    · rw [hv] at hp
      simp [hnd, hcond, hgt] at hp
    · exact hA
    · exact hB
    · exact hC
  | case17 rest curr nd gchars groups ell hnd hcond hgt hA hB hC hv h4 =>
    intro groups' ell' _ _ _ _ hp
    rw [parseV6] at hp
    · rw [hv] at hp
      simp [hnd, hcond, hgt, h4] at hp
    · exact hA
    · exact hB
    · exact hC
  | case18 rest curr nd gchars groups ell hnd hcond hgt a b cc d hA hB hC hv h4 =>
    intro groups' ell' hb hc hl he hp
    rw [parseV6] at hp
    · rw [hv] at hp
      simp only [hnd, hcond, hgt, h4, if_false, ite_false] at hp
      simp [hnd, hcond, hgt, h4] at hp
      obtain ⟨h1, h2⟩ := hp
      subst h1
      subst h2
      rcases parseIPv4Bytes_bounds _ _ _ _ _ h4 with ⟨ha', hb', hc', hd'⟩
      simp only [gt_iff_lt, not_lt] at hgt
      refine ⟨?_, by simp; omega, ?_⟩
      · intro x hx
        rcases List.mem_append.mp hx with h1 | h1
        · exact hb x h1
        · simp only [List.mem_cons, List.not_mem_nil, or_false] at h1
          rcases h1 with rfl | rfl <;> omega
      · intro e hee
        have := he e hee
        simp only [List.length_append, List.length_cons, List.length_nil]
        omega
    · exact hA
    · exact hB
    · exact hC
  | case19 c rest curr nd gchars groups ell hA hB hC hv hdot =>
    intro groups' ell' _ _ _ _ hp
    rw [parseV6] at hp
    · rw [hv] at hp
      simp only at hp
      rw [if_neg hdot] at hp
      exact absurd hp (by simp)
    · exact hA
    · exact hB
    · exact hC

/-- postV6 yields exactly eight bounded groups. -/
theorem postV6_shape (groups : List Nat) (ell : Option Nat) (r : List Nat)
    (hb : ∀ x ∈ groups, x ≤ 0xffff) (hl : groups.length ≤ 8)
    (he : ∀ e, ell = some e → e ≤ groups.length)
    (h : postV6 groups ell = some r) :
    r.length = 8 ∧ ∀ x ∈ r, x ≤ 0xffff := by
  unfold postV6 at h
  split at h
  · rename_i h8
    split at h
    · exact absurd h (by simp)
    · simp only [Option.some.injEq] at h
      subst h
      exact ⟨h8, hb⟩
  · rename_i h8
    split at h
    · exact absurd h (by simp)
    · rename_i e
      simp only [Option.some.injEq] at h
      subst h
      have hee : e ≤ groups.length := he e rfl
      constructor
      · simp only [List.length_append, List.length_take, List.length_replicate,
          List.length_drop]
        omega
      · intro x hx
        rcases List.mem_append.mp hx with hx1 | hx1
        · rcases List.mem_append.mp hx1 with hx2 | hx2
          · exact hb x (List.mem_of_mem_take hx2)
          · rw [List.eq_of_mem_replicate hx2]; omega
        · exact hb x (List.mem_of_mem_drop hx1)

/-- parseIPv6 yields exactly eight bounded groups. -/
theorem parseIPv6_shape (cs : List Char) (r : List Nat) (h : parseIPv6 cs = some r) :
    r.length = 8 ∧ ∀ x ∈ r, x ≤ 0xffff := by
  unfold parseIPv6 at h
  split at h
  · split at h
    · simp only [Option.some.injEq] at h
      subst h
      constructor
      · simp
      · intro x hx; rw [List.eq_of_mem_replicate hx]; omega
    · rename_i rest _
      split at h
      · exact absurd h (by simp)
      · rename_i groups ell hpv
        obtain ⟨hb, hl, he⟩ := parseV6_inv rest 0 0 [] [] (some 0) groups ell
          (by simp) (by omega) (by simp)
          (by intro e hee; injection hee with h2; omega) hpv
        exact postV6_shape groups ell r hb hl he h
  · split at h
    · exact absurd h (by simp)
    · rename_i groups ell hpv
      obtain ⟨hb, hl, he⟩ := parseV6_inv _ 0 0 [] [] none groups ell
        (by simp) (by omega) (by simp) (by simp) hpv
      exact postV6_shape groups ell r hb hl he h

/-- parseIP yields exactly eight bounded groups. -/
theorem parseIP_shape (s : String) (g : List Nat) (h : parseIP s = some g) :
    g.length = 8 ∧ ∀ x ∈ g, x ≤ 0xffff := by
  unfold parseIP at h
  split at h
  · exact absurd h (by simp)
  · split at h
    · simp only [Option.map_eq_some'] at h
      rcases h with ⟨⟨a, b, c, d⟩, hab, hg⟩
      subst hg
      rcases parseIPv4Bytes_bounds _ _ _ _ _ hab with ⟨ha, hb', hc, hd⟩
      constructor
      · simp
      · intro x hx
        simp only [List.mem_cons, List.not_mem_nil, or_false] at hx
        rcases hx with rfl | rfl | rfl | rfl | rfl | rfl | rfl | rfl <;> omega
    · exact parseIPv6_shape _ _ h
    · exact absurd h (by simp)

/-- Printed decimal digits satisfy isDigit. -/
theorem decDigit_isDigit : ∀ v < 10, isDigit (decDigit v) := by decide

/-- A list whose members all differ from c does not contain c. -/
theorem contains_false (cs : List Char) (c : Char) (h : ∀ x ∈ cs, x ≠ c) :
    cs.contains c = false := by
  induction cs with
  | nil => rfl
  | cons x xs ih =>
    simp only [List.contains_cons, Bool.or_eq_false_iff]
    constructor
    · have := h x (List.mem_cons_self x xs)
      simp only [beq_eq_false_iff_ne, ne_eq]
      intro he
      exact this he.symm
    · exact ih fun y hy => h y (List.mem_cons_of_mem x hy)

/-- The separator is absent from a printed octet. -/
theorem dot_not_mem_decChars (n : Nat) : '.' ∉ decChars n := by
  intro hmem
  rcases decChars_chars n '.' hmem with ⟨v, hv, hcv⟩
  exact (decDigit_ne v hv).1 hcv.symm

/-- Splitting the dotted-quad character list recovers the four octet strings. -/
theorem splitOnChar_v4 (a b c d : Nat) :
    splitOnChar '.' (decChars a ++ '.' :: decChars b ++ '.' :: decChars c ++ '.' :: decChars d) =
      [decChars a, decChars b, decChars c, decChars d] := by
  have hassoc : decChars a ++ '.' :: decChars b ++ '.' :: decChars c ++ '.' :: decChars d =
      decChars a ++ ('.' :: (decChars b ++ ('.' :: (decChars c ++ ('.' :: decChars d))))) := by
    simp [List.append_assoc]
  rw [hassoc, splitOnChar_append _ _ _ (dot_not_mem_decChars a),
    splitOnChar_append _ _ _ (dot_not_mem_decChars b),
    splitOnChar_append _ _ _ (dot_not_mem_decChars c),
    splitOnChar_nosep _ _ (dot_not_mem_decChars d)]

/-- Printing four bytes and parsing them back gives the same bytes. -/
theorem parseIPv4Bytes_print (a b c d : Nat) (ha : a ≤ 255) (hbb : b ≤ 255)
    (hc : c ≤ 255) (hd : d ≤ 255) :
    parseIPv4Bytes
      (decChars a ++ '.' :: decChars b ++ '.' :: decChars c ++ '.' :: decChars d) =
      some (a, b, c, d) := by
  unfold parseIPv4Bytes
  rw [splitOnChar_v4]
  simp [List.mapM_cons, List.mapM_nil, List.mapM.loop, octetVal_decChars a (by omega),
    octetVal_decChars b (by omega), octetVal_decChars c (by omega),
    octetVal_decChars d (by omega)]

/-- Parsing four octets and printing their values restores the input string. -/
theorem v4String_of_parse (cs : List Char) (a b c d : Nat)
    (h : parseIPv4Bytes cs = some (a, b, c, d)) :
    (v4String a b c d).data = cs := by
  rcases parseIPv4Bytes_spec cs a b c d h with ⟨p1, p2, p3, p4, hsplit, h1, h2, h3, h4⟩
  have e1 := (octetVal_inv _ _ h1).2
  have e2 := (octetVal_inv _ _ h2).2
  have e3 := (octetVal_inv _ _ h3).2
  have e4 := (octetVal_inv _ _ h4).2
  have hjoin : cs = joinWith '.' [p1, p2, p3, p4] := by
    rw [← hsplit, splitOnChar_join]
  rw [hjoin]
  show decChars a ++ '.' :: decChars b ++ '.' :: decChars c ++ '.' :: decChars d = _
  rw [e1, e2, e3, e4]
  simp [joinWith]

/-- Characters of the dotted-quad string: digits and dots. -/
theorem v4String_chars (a b c d : Nat) :
    ∀ ch ∈ (v4String a b c d).data, isDigit ch ∨ ch = '.' := by
  intro ch hch
  have hdec : ∀ n : Nat, ch ∈ decChars n → isDigit ch ∨ ch = '.' := by
    intro n hm
    rcases decChars_chars n ch hm with ⟨v, hv, hcv⟩
    exact Or.inl (hcv ▸ decDigit_isDigit v hv)
  have hchAl : ch ∈ decChars a ++ ('.' :: (decChars b ++ ('.' :: (decChars c ++
      ('.' :: decChars d))))) := by
    have : ch ∈ decChars a ++ '.' :: decChars b ++ '.' :: decChars c ++ '.' :: decChars d := hch
    simpa [List.append_assoc] using this
  simp only [List.mem_append, List.mem_cons] at hchAl
  rcases hchAl with h | h | h | h | h | h | h
  · exact hdec a h
  · exact Or.inr h
  · exact hdec b h
  · exact Or.inr h
  · exact hdec c h
  · exact Or.inr h
  · exact hdec d h

/-- Characters of glued groups: hex digits and colons. -/
theorem glueGroups_chars (g : List Nat) :
    ∀ ch ∈ glueGroups g, (hexVal ch).isSome ∨ ch = ':' := by
  induction g with
  | nil => simp [glueGroups]
  | cons x xs ih =>
    intro ch hch
    cases xs with
    | nil =>
      have hchAl : ch ∈ hexChars x := hch
      rcases hexChars_chars x ch hchAl with ⟨v, hv, hcv⟩
      exact Or.inl (by rw [hcv, hexVal_hexDigit v hv]; rfl)
    | cons y ys =>
      have hchAl : ch ∈ hexChars x ++ ':' :: glueGroups (y :: ys) := hch
      simp only [List.mem_append, List.mem_cons] at hchAl
      rcases hchAl with h | h | h
      · rcases hexChars_chars x ch h with ⟨v, hv, hcv⟩
        exact Or.inl (by rw [hcv, hexVal_hexDigit v hv]; rfl)
      · exact Or.inr h
      · exact ih ch h

/-- Characters of the IPv6 string: hex digits and colons. -/
theorem v6String_chars (g : List Nat) :
    ∀ ch ∈ (v6String g).data, (hexVal ch).isSome ∨ ch = ':' := by
  intro ch hch
  unfold v6String at hch
  split at hch
  · exact glueGroups_chars g ch hch
  · have hchAl : ch ∈ glueGroups (g.take _) ++ ':' :: ':' :: glueGroups (g.drop _) := hch
    simp only [List.mem_append, List.mem_cons] at hchAl
    rcases hchAl with h | h | h | h
    · exact glueGroups_chars _ ch h
    · exact Or.inr h
    · exact Or.inr h
    · exact glueGroups_chars _ ch h

/-- The first '.' or ':' after a prefix free of both is the appended separator. -/
theorem firstSpecial_append (A : List Char) (c : Char) (rest : List Char)
    (hA : ∀ x ∈ A, x ≠ '.' ∧ x ≠ ':') (hc : c = '.' ∨ c = ':') :
    firstSpecial (A ++ c :: rest) = some c := by
  induction A with
  | nil =>
    simp only [List.nil_append, firstSpecial]
    rw [if_pos hc]
  | cons x xs ih =>
    have hx := hA x (List.mem_cons_self x xs)
    simp only [List.cons_append, firstSpecial]
    rw [if_neg (by tauto)]
    exact ih fun y hy => hA y (List.mem_cons_of_mem x hy)

/-- The character found by firstSpecial occurs in the list and is '.' or ':'. -/
theorem firstSpecial_mem (cs : List Char) (c : Char) (h : firstSpecial cs = some c) :
    c ∈ cs ∧ (c = '.' ∨ c = ':') := by
  induction cs with
  | nil => simp [firstSpecial] at h
  | cons x xs ih =>
    simp only [firstSpecial] at h
    split at h
    · rename_i hx
      simp only [Option.some.injEq] at h
      subst h
      exact ⟨List.mem_cons_self x xs, hx⟩
    · rcases ih h with ⟨h1, h2⟩
      exact ⟨List.mem_cons_of_mem x h1, h2⟩

/-- Parsing a printed dotted quad: full net.ParseIP round trip for IPv4. -/
theorem parseIP_v4String (a b c d : Nat) (ha : a ≤ 255) (hbb : b ≤ 255)
    (hc : c ≤ 255) (hd : d ≤ 255) :
    parseIP (v4String a b c d) = some [0, 0, 0, 0, 0, 0xffff, a * 256 + b, c * 256 + d] := by
  have hdata : (v4String a b c d).data =
      decChars a ++ '.' :: decChars b ++ '.' :: decChars c ++ '.' :: decChars d := rfl
  have hdata' : (v4String a b c d).data =
      decChars a ++ ('.' :: (decChars b ++ ('.' :: (decChars c ++ ('.' :: decChars d))))) := by
    rw [hdata]; simp [List.append_assoc]
  have hnoPct : '%' ∉ (v4String a b c d).data := by
    intro hx
    rcases v4String_chars a b c d '%' hx with h | h
    · exact absurd h (by decide)
    · exact absurd h (by decide)
  have hfs : firstSpecial (v4String a b c d).data = some '.' := by
    rw [hdata']
    apply firstSpecial_append
    · intro x hxm
      rcases decChars_chars a x hxm with ⟨v, hv, hcv⟩
      exact hcv ▸ ⟨(decDigit_ne v hv).1, (decDigit_ne v hv).2.1⟩
    · exact Or.inl rfl
  unfold parseIP
  rw [if_neg (by simpa using hnoPct)]
  rw [hfs]
  rw [show (v4String a b c d).data = _ from hdata, parseIPv4Bytes_print a b c d ha hbb hc hd]
  rfl

/-- Printed hex digits are never '.' or ':'. -/
theorem hexChars_not_special (n : Nat) : ∀ x ∈ hexChars n, x ≠ '.' ∧ x ≠ ':' := by
  intro x hx
  rcases hexChars_chars n x hx with ⟨v, hv, hcv⟩
  exact hcv ▸ ⟨(hexDigit_ne v hv).2.1, (hexDigit_ne v hv).1⟩

/-- parseIPv6 on a list not starting with "::" runs the main loop directly. -/
theorem parseIPv6_not2colon (cs : List Char) (h : ∀ rest, cs ≠ ':' :: ':' :: rest) :
    parseIPv6 cs = match parseV6 cs 0 0 [] [] none with
      | none => none
      | some (groups, ell) => postV6 groups ell := by
  unfold parseIPv6
  split
  · rename_i rest
    exact absurd rfl (h rest)
  · rfl

/-- Appending after glued groups shifts the first separator inside. -/
theorem glueGroups_colon_shift (x : Nat) (xs : List Nat) (tail : List Char) :
    ∃ B, glueGroups (x :: xs) ++ ':' :: tail = hexChars x ++ ':' :: B := by
  cases xs with
  | nil => exact ⟨tail, by simp [glueGroups]⟩
  | cons y ys =>
    refine ⟨glueGroups (y :: ys) ++ ':' :: tail, ?_⟩
    show (hexChars x ++ ':' :: glueGroups (y :: ys)) ++ ':' :: tail = _
    simp [List.append_assoc]

/-- Parsing the printed IPv6 form recovers the eight groups. -/
theorem parseIPv6_v6String (g : List Nat) (hlen : g.length = 8) (hb : ∀ x ∈ g, x ≤ 0xffff) :
    parseIPv6 (v6String g).data = some g := by
  rcases hbr : bestRun g with _ | ⟨i, l⟩
  · have hv : v6String g = String.mk (glueGroups g) := by rw [v6String, hbr]
    rw [hv]
    show parseIPv6 (glueGroups g) = some g
    rcases hg : g with _ | ⟨g0, gs⟩; · rw [hg] at hlen; simp at hlen
    rcases glueGroups_cons_shape g0 gs with ⟨c2, rest2, hshape, hcne, _⟩
    rw [parseIPv6_not2colon]
    swap
    · intro rest heq
      rw [hshape] at heq
      injection heq with h1 _
      exact hcne h1
    rw [hg] at hlen hb
    rw [parseV6_glue (g0 :: gs) [] none (by simp) hb (by simp only [List.length_nil]; omega)]
    simp only [List.nil_append]
    show postV6 (g0 :: gs) none = some (g0 :: gs)
    unfold postV6
    rw [if_pos hlen]
  · rcases bestRun_decomp g i l hbr with ⟨hdec, hil, hl2⟩
    rcases bestRun_spec g i l hbr with ⟨hi, _, _⟩
    have hi8 : i < 8 := hlen ▸ hi
    have hil8 : i + l ≤ 8 := hlen ▸ hil
    have hvd : (v6String g).data =
        glueGroups (g.take i) ++ ':' :: ':' :: glueGroups (g.drop (i + l)) := by
      rw [v6String, hbr]
    by_cases hi0 : i = 0
    · subst hi0
      have hvd2 : (v6String g).data = ':' :: ':' :: glueGroups (g.drop l) := by
        rw [hvd]; simp [glueGroups]
      rw [hvd2]
      by_cases hl8 : l = 8
      · subst hl8
        have hdrop : g.drop 8 = [] := List.drop_eq_nil_of_le (by omega)
        have hdrop0 : g.drop (0 + 8) = [] := by simpa using hdrop
        rw [hdrop, show glueGroups ([] : List Nat) = [] from rfl]
        rw [parseIPv6, if_pos rfl]
        have hg0 : g = List.replicate 8 0 := by
          have := hdec
          rw [hdrop0] at this
          simpa using this
        rw [hg0]
      · have hlend : (g.drop l).length = 8 - l := by simp [hlen]
        have hdne : g.drop l ≠ [] := by
          intro he
          rw [he] at hlend
          simp at hlend
          omega
        rcases hdd : g.drop l with _ | ⟨d0, ds⟩; · exact absurd hdd hdne
        rcases glueGroups_cons_shape d0 ds with ⟨e2, erest, heshape, _, _⟩
        have hgne : glueGroups (g.drop l) ≠ [] := by rw [hdd, heshape]; simp
        rw [← hdd]
        rw [parseIPv6, if_neg hgne]
        rw [parseV6_glue (g.drop l) [] (some 0) hdne
          (fun x hx => hb x (List.mem_of_mem_drop hx))
          (by simp only [List.length_nil]; omega)]
        simp only [List.nil_append]
        show postV6 (g.drop l) (some 0) = some g
        unfold postV6
        rw [if_neg (by rw [hlend]; omega)]
        simp only [List.take_zero, List.drop_zero, List.nil_append, hlend]
        rw [show 8 - (8 - l) = l from by omega]
        have hdec' : g = List.replicate l 0 ++ g.drop l := by simpa using hdec
        rw [← hdec']
    · have hip : 1 ≤ i := Nat.one_le_iff_ne_zero.mpr hi0
      rw [hvd]
      rcases hti : g.take i with _ | ⟨t0, ts⟩
      · have := congrArg List.length hti
        simp [List.length_take, hlen] at this
        omega
      have hlti : (t0 :: ts).length = i := by
        rw [← hti]
        simp only [List.length_take, hlen]
        omega
      rcases glueGroups_cons_shape t0 ts with ⟨c2, rest2, hshape, hcne, _⟩
      rw [parseIPv6_not2colon]
      swap
      · intro rest heq
        rw [hshape, List.cons_append] at heq
        injection heq with h1 _
        exact hcne h1
      rw [parseV6_glue_colon2 (t0 :: ts) (glueGroups (g.drop (i + l))) [] none (by simp)
        (by rw [← hti]; exact fun x hx => hb x (List.mem_of_mem_take hx))
        (by simp only [List.length_nil, hlti]; omega)]
      rw [if_neg (by simp)]
      simp only [List.nil_append]
      by_cases hil8' : i + l = 8
      · have hdrop : g.drop (i + l) = [] := List.drop_eq_nil_of_le (by omega)
        rw [hdrop, show glueGroups ([] : List Nat) = [] from rfl, if_pos rfl]
        show postV6 (t0 :: ts) (some (t0 :: ts).length) = some g
        unfold postV6
        rw [if_neg (by rw [hlti]; omega)]
        simp only [List.take_length, List.drop_length, List.append_nil]
        rw [hlti, show 8 - i = l from by omega, ← hti]
        conv_rhs => rw [hdec, hdrop]
        simp
      · have hlendrop : (g.drop (i + l)).length = 8 - (i + l) := by simp [hlen]
        have hdne : g.drop (i + l) ≠ [] := by
          intro he
          rw [he] at hlendrop
          simp at hlendrop
          omega
        rcases hdd : g.drop (i + l) with _ | ⟨d0, ds⟩; · exact absurd hdd hdne
        rcases glueGroups_cons_shape d0 ds with ⟨e2, erest, heshape, _, _⟩
        have hgne : glueGroups (g.drop (i + l)) ≠ [] := by rw [hdd, heshape]; simp
        rw [← hdd]
        rw [if_neg hgne, if_neg (by rw [hlti]; omega)]
        rw [parseV6_glue (g.drop (i + l)) (t0 :: ts) (some (t0 :: ts).length) hdne
          (fun x hx => hb x (List.mem_of_mem_drop hx))
          (by rw [hlti, hlendrop]; omega)]
        show postV6 ((t0 :: ts) ++ g.drop (i + l)) (some (t0 :: ts).length) = some g
        have hlen2 : ((t0 :: ts) ++ g.drop (i + l)).length = 8 - l := by
          rw [List.length_append, hlti, hlendrop]
          omega
        unfold postV6
        rw [if_neg (by rw [hlen2]; omega)]
        simp only [List.take_left, List.drop_left]
        rw [hlen2, show 8 - (8 - l) = l from by omega, ← hti]
        conv_rhs => rw [hdec]

/-- Parsing the printed IPv6 form through net.ParseIP. -/
theorem parseIP_v6String (g : List Nat) (hlen : g.length = 8) (hb : ∀ x ∈ g, x ≤ 0xffff) :
    parseIP (v6String g) = some g := by
  have hnoPct : '%' ∉ (v6String g).data := by
    intro hx
    rcases v6String_chars g '%' hx with h | h
    · exact absurd h (by decide)
    · exact absurd h (by decide)
  have hfs : firstSpecial (v6String g).data = some ':' := by
    rcases hbr : bestRun g with _ | ⟨i, l⟩
    · have hv : (v6String g).data = glueGroups g := by rw [v6String, hbr]
      rw [hv]
      rcases hg : g with _ | ⟨g0, gs⟩; · rw [hg] at hlen; simp at hlen
      rcases hgs : gs with _ | ⟨g1, gs'⟩
      · rw [hg, hgs] at hlen; simp at hlen
      rw [show glueGroups (g0 :: g1 :: gs') = hexChars g0 ++ ':' :: glueGroups (g1 :: gs')
        from rfl]
      exact firstSpecial_append _ _ _ (hexChars_not_special g0) (Or.inr rfl)
    · have hvd : (v6String g).data =
          glueGroups (g.take i) ++ ':' :: ':' :: glueGroups (g.drop (i + l)) := by
        rw [v6String, hbr]
      rw [hvd]
      rcases hti : g.take i with _ | ⟨t0, ts⟩
      · simp [firstSpecial]
      rcases glueGroups_colon_shift t0 ts (':' :: glueGroups (g.drop (i + l))) with ⟨B, hB⟩
      rw [hB]
      exact firstSpecial_append _ _ _ (hexChars_not_special t0) (Or.inr rfl)
  unfold parseIP
  rw [if_neg (by simpa using hnoPct)]
  rw [hfs]
  exact parseIPv6_v6String g hlen hb

/-- Round trip of IP.String and net.ParseIP on eight bounded groups. -/
theorem parseIP_ipString (g : List Nat) (hlen : g.length = 8) (hb : ∀ x ∈ g, x ≤ 0xffff) :
    parseIP (ipString g) = some g := by
  by_cases hT : ipTo4 g = true
  · rcases g with _ | ⟨g0, g⟩; · simp at hlen
    rcases g with _ | ⟨g1, g⟩; · simp at hlen
    rcases g with _ | ⟨g2, g⟩; · simp at hlen
    rcases g with _ | ⟨g3, g⟩; · simp at hlen
    rcases g with _ | ⟨g4, g⟩; · simp at hlen
    rcases g with _ | ⟨g5, g⟩; · simp at hlen
    rcases g with _ | ⟨g6, g⟩; · simp at hlen
    rcases g with _ | ⟨g7, g⟩; · simp at hlen
    rcases g with _ | ⟨g8, g⟩
    swap; · simp at hlen
    simp only [ipTo4, List.take, List.get?, decide_eq_true_eq, Bool.and_eq_true,
      List.cons.injEq, and_true, Option.some.injEq] at hT
    obtain ⟨⟨rfl, rfl, rfl, rfl, rfl⟩, rfl⟩ := hT
    have h6 : g6 ≤ 0xffff := hb g6 (by simp)
    have h7 : g7 ≤ 0xffff := hb g7 (by simp)
    rw [ipString, if_pos (by simp [ipTo4])]
    show parseIP (v4String (g6 / 256) (g6 % 256) (g7 / 256) (g7 % 256)) = _
    rw [parseIP_v4String _ _ _ _ (by omega) (by omega) (by omega) (by omega)]
    rw [show g6 / 256 * 256 + g6 % 256 = g6 from by omega,
      show g7 / 256 * 256 + g7 % 256 = g7 from by omega]
  · rw [ipString, if_neg hT]
    exact parseIP_v6String g hlen hb

/-- A host-set character differs from any character outside the set. -/
theorem hostChar_ne (c : Char)
    (hc : isAlpha c = true ∨ isDigit c = true ∨ c = '-' ∨ c = '.')
    (d : Char) (hd : isAlpha d = false) (hd2 : isDigit d = false)
    (hd3 : d ≠ '-') (hd4 : d ≠ '.') : c ≠ d := by
  intro he
  subst he
  rcases hc with h | h | h | h
  · rw [hd] at h; exact Bool.noConfusion h
  · rw [hd2] at h; exact Bool.noConfusion h
  · exact hd3 h
  · exact hd4 h

/-- Host-set characters need no escaping in the host component. -/
theorem hostChar_noescape (c : Char)
    (hc : isAlpha c = true ∨ isDigit c = true ∨ c = '-' ∨ c = '.') :
    shouldEscapeHost c = false := by
  rcases hc with h | h | rfl | rfl
  · simp [shouldEscapeHost, h]
  · simp [shouldEscapeHost, h]
  · decide
  · decide

/-- Host-set characters are printable ASCII outside the control range. -/
theorem hostChar_bounds (c : Char)
    (hc : isAlpha c = true ∨ isDigit c = true ∨ c = '-' ∨ c = '.') :
    0x20 ≤ c.toNat ∧ c.toNat ≠ 0x7f := by
  rcases hc with h | h | rfl | rfl
  · simp [isAlpha, isLower, isUpper] at h
    omega
  · simp [isDigit] at h
    omega
  · decide
  · decide

/-- cutAtChar finds nothing when the character is absent. -/
theorem cutAtChar_not_mem (c : Char) (cs : List Char) (h : c ∉ cs) :
    cutAtChar c cs = (cs, [], false) := by
  induction cs with
  | nil => rfl
  | cons x xs ih =>
    have hx : x ≠ c := fun he => h (he ▸ List.mem_cons_self x xs)
    have ht := ih fun hm => h (List.mem_cons_of_mem x hm)
    simp [cutAtChar, if_neg hx, ht]

/-- The fold underlying lastIdx keeps its accumulator over indices that never hit. -/
theorem foldl_lastIdx_const (c : Char) (cs : List Char) (idxs : List Nat) :
    ∀ acc : Option Nat, (∀ i ∈ idxs, cs.get? i ≠ some c) →
    idxs.foldl (fun acc i => if cs.get? i = some c then some i else acc) acc = acc := by
  induction idxs with
  | nil => intro acc _; rfl
  | cons j js ih =>
    intro acc hno
    simp only [List.foldl_cons]
    rw [if_neg (hno j (List.mem_cons_self j js))]
    exact ih acc fun i hi => hno i (List.mem_cons_of_mem j hi)

/-- lastIdx misses characters that are not in the list. -/
theorem lastIdx_none (c : Char) (cs : List Char) (h : ∀ x ∈ cs, x ≠ c) :
    lastIdx c cs = none := by
  unfold lastIdx
  apply foldl_lastIdx_const
  intro i _ hget
  exact h c (List.get?_mem hget) rfl

/-- lastIdx of a list ending in the character is the final index. -/
theorem lastIdx_concat (c : Char) (xs : List Char) :
    lastIdx c (xs ++ [c]) = some xs.length := by
  unfold lastIdx
  rw [show (xs ++ [c]).length = xs.length + 1 by simp, List.range_succ, List.foldl_append]
  simp only [List.foldl_cons, List.foldl_nil]
  rw [if_pos]
  rw [List.get?_append_right (le_refl _)]
  simp

/-- The fold underlying lastIdx returns its start or a hit index from the list. -/
theorem foldl_lastIdx_mem (c : Char) (cs : List Char) (idxs : List Nat) :
    ∀ acc : Option Nat,
    idxs.foldl (fun acc i => if cs.get? i = some c then some i else acc) acc = acc ∨
    ∃ i ∈ idxs, idxs.foldl (fun acc i => if cs.get? i = some c then some i else acc) acc
      = some i ∧ cs.get? i = some c := by
  induction idxs with
  | nil => intro acc; exact Or.inl rfl
  | cons j js ih =>
    intro acc
    simp only [List.foldl_cons]
    rcases ih (if cs.get? j = some c then some j else acc) with h | h
    · rw [h]
      split
      · rename_i hj
        exact Or.inr ⟨j, List.mem_cons_self j js, rfl, hj⟩
      · exact Or.inl rfl
    · rcases h with ⟨i, hi, hfold, hget⟩
      exact Or.inr ⟨i, List.mem_cons_of_mem j hi, hfold, hget⟩

/-- A successful lastIdx points at an occurrence inside the list. -/
theorem lastIdx_spec (c : Char) (cs : List Char) (i : Nat) (h : lastIdx c cs = some i) :
    i < cs.length ∧ cs.get? i = some c := by
  unfold lastIdx at h
  rcases foldl_lastIdx_mem c cs (List.range cs.length) none with h1 | h1
  · rw [h] at h1; exact absurd h1 (by simp)
  · rcases h1 with ⟨j, hj, hfold, hget⟩
    rw [h] at hfold
    injection hfold with h2
    subst h2
    exact ⟨List.mem_range.mp hj, hget⟩

/-- dropWhile keeps a list whose members all fail the predicate. -/
theorem dropWhile_eq_self_of (p : Char → Bool) (cs : List Char)
    (h : ∀ c ∈ cs, p c = false) : cs.dropWhile p = cs := by
  cases cs with
  | nil => rfl
  | cons x xs =>
    rw [List.dropWhile_cons, h x (List.mem_cons_self x xs)]
    simp

/-- goTrimSpace is the identity on space-free strings. -/
theorem goTrimSpace_eq_self (cs : List Char) (h : ∀ c ∈ cs, isGoSpace c = false) :
    goTrimSpace cs = cs := by
  unfold goTrimSpace
  rw [dropWhile_eq_self_of _ _ h]
  rw [dropWhile_eq_self_of _ _ fun c hc => h c (List.mem_reverse.mp hc)]
  exact List.reverse_reverse cs

/-- unescapeHost passes through percent-free strings of allowed characters. -/
theorem unescapeHost_id (cs : List Char)
    (h : ∀ c ∈ cs, c ≠ '%' ∧ ¬(c.toNat < 0x80 ∧ shouldEscapeHost c = true)) :
    unescapeHost cs = some cs := by
  induction cs with
  | nil => rfl
  | cons c rest ih =>
    have hc := h c (List.mem_cons_self c rest)
    have ht := ih fun d hd => h d (List.mem_cons_of_mem c hd)
    rw [unescapeHost]
    · rw [if_neg hc.2, ht]
      rfl
    all_goals intros; subst_vars
    · exact hc.1 rfl
    · exact hc.1 rfl

/-- A hex digit character is a digit or a letter. -/
theorem hexChar_class (c : Char) (h : (hexVal c).isSome = true) :
    isDigit c = true ∨ isAlpha c = true := by
  unfold hexVal at h
  split at h
  · rename_i hd; exact Or.inl hd
  · split at h
    · rename_i hl
      refine Or.inr ?_
      have hlo : isLower c = true := by
        simp only [isLower, decide_eq_true_eq]
        omega
      simp [isAlpha, hlo]
    · split at h
      · rename_i hu
        refine Or.inr ?_
        have hup : isUpper c = true := by
          simp only [isUpper, decide_eq_true_eq]
          omega
        simp [isAlpha, hup]
      · simp at h

/-- URL-host extraction of a plain lowercase-style host behind "http://":
the parse succeeds and returns the host unchanged. -/
theorem goURLHostname_http (h : List Char) (hne : h ≠ [])
    (hch : ∀ c ∈ h, isAlpha c = true ∨ isDigit c = true ∨ c = '-' ∨ c = '.') :
    goURLHostname (String.mk ('h' :: 't' :: 't' :: 'p' :: ':' :: '/' :: '/' :: h)) =
      some (String.mk h) := by
  have hnh : ∀ d : Char, isAlpha d = false → isDigit d = false → d ≠ '-' → d ≠ '.' →
      d ∉ h := by
    intro d h1 h2 h3 h4 hmem
    exact hostChar_ne d (hch d hmem) d h1 h2 h3 h4 rfl
  have hcut : cutAtChar '#' ('h' :: 't' :: 't' :: 'p' :: ':' :: '/' :: '/' :: h) =
      ('h' :: 't' :: 't' :: 'p' :: ':' :: '/' :: '/' :: h, [], false) := by
    apply cutAtChar_not_mem
    intro hm
    simp only [List.mem_cons] at hm
    rcases hm with h1 | h1 | h1 | h1 | h1 | h1 | h1 | h1 <;>
      first
      | exact absurd h1 (by decide)
      | exact hnh '#' (by decide) (by decide) (by decide) (by decide) h1
  have hctl : hasCtl ('h' :: 't' :: 't' :: 'p' :: ':' :: '/' :: '/' :: h) = false := by
    simp only [hasCtl, List.any_eq_false]
    intro x hx
    simp only [List.mem_cons] at hx
    rcases hx with h1 | h1 | h1 | h1 | h1 | h1 | h1 | h1
    · subst h1; decide
    · subst h1; decide
    · subst h1; decide
    · subst h1; decide
    · subst h1; decide
    · subst h1; decide
    · subst h1; decide
    · have hb := hostChar_bounds x (hch x h1)
      simp only [decide_eq_true_eq]
      omega
  have hfind : findScheme ('h' :: 't' :: 't' :: 'p' :: ':' :: '/' :: '/' :: h) 0 =
      SchemeRes.schemeLen 4 := rfl
  have hcut2 : cutAtChar '?' ('/' :: '/' :: h) = ('/' :: '/' :: h, [], false) := by
    apply cutAtChar_not_mem
    intro hm
    simp only [List.mem_cons] at hm
    rcases hm with h1 | h1 | h1 <;>
      first
      | exact absurd h1 (by decide)
      | exact hnh '?' (by decide) (by decide) (by decide) (by decide) h1
  have htake : List.takeWhile (fun x => !decide (x = '/')) h = h := by
    apply List.takeWhile_eq_self_iff.mpr
    intro x hx
    simp only [Bool.not_eq_true', decide_eq_false_iff_not]
    exact hostChar_ne x (hch x hx) '/' (by decide) (by decide) (by decide) (by decide)
  have hdropw : List.dropWhile (fun x => !decide (x = '/')) h = [] := by
    apply List.dropWhile_eq_nil_iff.mpr
    intro x hx
    simp only [Bool.not_eq_true', decide_eq_false_iff_not]
    exact hostChar_ne x (hch x hx) '/' (by decide) (by decide) (by decide) (by decide)
  have hat : lastIdx '@' h = none :=
    lastIdx_none '@' h fun x hx =>
      hostChar_ne x (hch x hx) '@' (by decide) (by decide) (by decide) (by decide)
  have hcolonN : lastIdx ':' h = none :=
    lastIdx_none ':' h fun x hx =>
      hostChar_ne x (hch x hx) ':' (by decide) (by decide) (by decide) (by decide)
  have hstart : listStartsWith ['['] h = false := by
    rcases hh : h with _ | ⟨c0, hrest⟩
    · rfl
    · have hm : c0 ∈ h := hh ▸ List.mem_cons_self c0 hrest
      have hc0 : c0 ≠ '[' :=
        hostChar_ne c0 (hch c0 hm) '[' (by decide) (by decide) (by decide) (by decide)
      simp only [listStartsWith, decide_eq_false_iff_not]
      rintro ⟨he, -⟩
      exact hc0 he.symm
  have hesc : unescapeHost h = some h :=
    unescapeHost_id h fun c hc =>
      ⟨hostChar_ne c (hch c hc) '%' (by decide) (by decide) (by decide) (by decide),
       by rw [hostChar_noescape c (hch c hc)]; simp⟩
  have hph : parseHost h = some h := by
    unfold parseHost
    rw [hstart]
    simp only [Bool.false_eq_true, if_false]
    rw [hcolonN]
    exact hesc
  have hpa : parseAuthority h = some h := by
    unfold parseAuthority splitAtLastAt
    rw [hat]
    exact hph
  have hhn : hostnameOf h = h := by
    unfold hostnameOf
    simp [hcolonN, hstart]
  unfold goURLHostname
  simp only [show (String.mk ('h' :: 't' :: 't' :: 'p' :: ':' :: '/' :: '/' :: h)).data =
    'h' :: 't' :: 't' :: 'p' :: ':' :: '/' :: '/' :: h from rfl]
  simp [hcut, hctl, hfind, hcut2, htake, hdropw, hpa, hhn, hne, listStartsWith, percentOk]

/-- A some accumulator survives the lastIdx fold. -/
theorem foldl_lastIdx_keep (c : Char) (cs : List Char) (idxs : List Nat) :
    ∀ j : Nat,
    idxs.foldl (fun a i => if cs.get? i = some c then some i else a) (some j) ≠ none := by
  induction idxs with
  | nil => intro j; simp
  | cons k ks ih =>
    intro j
    simp only [List.foldl_cons]
    split
    · exact ih k
    · exact ih j

/-- The lastIdx fold cannot return none once some index hits. -/
theorem foldl_lastIdx_ne_none (c : Char) (cs : List Char) (idxs : List Nat) :
    ∀ (acc : Option Nat) (j : Nat), j ∈ idxs → cs.get? j = some c →
    idxs.foldl (fun a i => if cs.get? i = some c then some i else a) acc ≠ none := by
  induction idxs with
  | nil => intro acc j h; simp at h
  | cons k ks ih =>
    intro acc j hj hget
    simp only [List.foldl_cons]
    rcases List.mem_cons.mp hj with rfl | hj2
    · rw [if_pos hget]
      exact foldl_lastIdx_keep c cs ks j
    · exact ih _ j hj2 hget

/-- lastIdx finds characters that are in the list. -/
theorem lastIdx_mem_ne_none (c : Char) (cs : List Char) (hmem : c ∈ cs) :
    lastIdx c cs ≠ none := by
  obtain ⟨n, hn⟩ := List.mem_iff_get?.mp hmem
  have hlt : n < cs.length := by
    rcases List.get?_eq_some.mp hn with ⟨hh, _⟩
    exact hh
  exact foldl_lastIdx_ne_none c cs _ none n (List.mem_range.mpr hlt) hn

/-- Dropping up to a known occurrence exposes it in head position. -/
theorem drop_eq_cons_of_get (cs : List Char) (n : Nat) (c : Char) (h : cs.get? n = some c) :
    cs.drop n = c :: cs.drop (n + 1) := by
  rcases List.get?_eq_some.mp h with ⟨hlt, he⟩
  have hce : cs[n] = c := by simpa using he
  rw [List.drop_eq_getElem_cons hlt, hce]

/-- URL-host extraction of a bracketed IPv6-literal host behind "http://":
the parse succeeds and the brackets are stripped again. -/
theorem goURLHostname_http_bracket (v : List Char)
    (hch : ∀ c ∈ v, (hexVal c).isSome = true ∨ c = ':') (hv : ':' ∈ v) :
    goURLHostname (String.mk
      ('h' :: 't' :: 't' :: 'p' :: ':' :: '/' :: '/' :: (('[' :: v) ++ [']']))) =
      some (String.mk v) := by
  have hnv : ∀ d : Char, hexVal d = none → d ≠ ':' → d ∉ v := by
    intro d h1 h2 hm
    rcases hch d hm with hx | hx
    · rw [h1] at hx; exact Bool.noConfusion hx
    · exact h2 hx
  have hnc : ∀ d : Char, hexVal d = none → d ≠ ':' → d ≠ '[' → d ≠ ']' →
      d ∉ ('[' :: v) ++ [']'] := by
    intro d h1 h2 h3 h4 hm
    rcases List.mem_append.mp hm with hm | hm
    · rcases List.mem_cons.mp hm with he | hm
      · exact h3 he
      · exact hnv d h1 h2 hm
    · simp only [List.mem_singleton] at hm
      exact h4 hm
  have hclass : ∀ c ∈ ('[' :: v) ++ [']'],
      c = '[' ∨ c = ']' ∨ c = ':' ∨ isDigit c = true ∨ isAlpha c = true := by
    intro c hm
    rcases List.mem_append.mp hm with hm | hm
    · rcases List.mem_cons.mp hm with he | hm
      · exact Or.inl he
      · rcases hch c hm with hx | hx
        · rcases hexChar_class c hx with h1 | h1
          · exact Or.inr (Or.inr (Or.inr (Or.inl h1)))
          · exact Or.inr (Or.inr (Or.inr (Or.inr h1)))
        · exact Or.inr (Or.inr (Or.inl hx))
    · simp only [List.mem_singleton] at hm
      exact Or.inr (Or.inl hm)
  have hcut : cutAtChar '#' ('h' :: 't' :: 't' :: 'p' :: ':' :: '/' :: '/' ::
      (('[' :: v) ++ [']'])) =
      ('h' :: 't' :: 't' :: 'p' :: ':' :: '/' :: '/' :: (('[' :: v) ++ [']']), [], false) := by
    apply cutAtChar_not_mem
    intro hm
    simp only [List.mem_cons] at hm
    rcases hm with h1 | h1 | h1 | h1 | h1 | h1 | h1 | h1 <;>
      first
      | exact absurd h1 (by decide)
      | exact hnc '#' (by decide) (by decide) (by decide) (by decide) h1
  have hctl : hasCtl ('h' :: 't' :: 't' :: 'p' :: ':' :: '/' :: '/' ::
      (('[' :: v) ++ [']'])) = false := by
    simp only [hasCtl, List.any_eq_false]
    intro x hx
    simp only [List.mem_cons] at hx
    rcases hx with h1 | h1 | h1 | h1 | h1 | h1 | h1 | h1
    · subst h1; decide
    · subst h1; decide
    · subst h1; decide
    · subst h1; decide
    · subst h1; decide
    · subst h1; decide
    · subst h1; decide
    · rcases hclass x h1 with rfl | rfl | rfl | hx | hx
      · decide
      · decide
      · decide
      · simp only [isDigit, decide_eq_true_eq] at hx
        simp only [decide_eq_true_eq]
        omega
      · simp only [isAlpha, isLower, isUpper] at hx
        simp only [decide_eq_true_eq] at hx ⊢
        rcases hx with hx | hx <;> omega
  have hfind : findScheme ('h' :: 't' :: 't' :: 'p' :: ':' :: '/' :: '/' ::
      (('[' :: v) ++ [']'])) 0 = SchemeRes.schemeLen 4 := rfl
  have hcut2 : cutAtChar '?' ('/' :: '/' :: (('[' :: v) ++ [']'])) =
      ('/' :: '/' :: (('[' :: v) ++ [']']), [], false) := by
    apply cutAtChar_not_mem
    intro hm
    simp only [List.mem_cons] at hm
    rcases hm with h1 | h1 | h1 <;>
      first
      | exact absurd h1 (by decide)
      | exact hnc '?' (by decide) (by decide) (by decide) (by decide) h1
  have hslash : '/' ∉ ('[' :: v) ++ [']'] :=
    hnc '/' (by decide) (by decide) (by decide) (by decide)
  have htake : List.takeWhile (fun x => !decide (x = '/')) (('[' :: v) ++ [']']) =
      ('[' :: v) ++ [']'] := by
    apply List.takeWhile_eq_self_iff.mpr
    intro x hx
    simp only [Bool.not_eq_true', decide_eq_false_iff_not]
    intro he
    exact hslash (he ▸ hx)
  have hdropw : List.dropWhile (fun x => !decide (x = '/')) (('[' :: v) ++ [']']) = [] := by
    apply List.dropWhile_eq_nil_iff.mpr
    intro x hx
    simp only [Bool.not_eq_true', decide_eq_false_iff_not]
    intro he
    exact hslash (he ▸ hx)
  have hat : lastIdx '@' (('[' :: v) ++ [']']) = none := by
    apply lastIdx_none
    intro x hx he
    exact hnc '@' (by decide) (by decide) (by decide) (by decide) (he ▸ hx)
  have hstart : listStartsWith ['['] (('[' :: v) ++ [']']) = true := by
    show listStartsWith ['['] ('[' :: (v ++ [']'])) = true
    simp [listStartsWith]
  have hlast : lastIdx ']' (('[' :: v) ++ [']']) = some ('[' :: v).length :=
    lastIdx_concat ']' ('[' :: v)
  have hdropend : (('[' :: v) ++ [']']).drop (('[' :: v).length + 1) = [] :=
    List.drop_eq_nil_of_le (by simp)
  have hesc : unescapeHost (('[' :: v) ++ [']']) = some (('[' :: v) ++ [']']) := by
    apply unescapeHost_id
    intro c hc
    constructor
    · intro he
      exact hnc '%' (by decide) (by decide) (by decide) (by decide) (he ▸ hc)
    · rcases hclass c hc with rfl | rfl | rfl | hx | hx
      · decide
      · decide
      · decide
      · rw [hostChar_noescape c (Or.inr (Or.inl hx))]
        simp
      · rw [hostChar_noescape c (Or.inl hx)]
        simp
  have hph : parseHost (('[' :: v) ++ [']']) = some (('[' :: v) ++ [']']) := by
    unfold parseHost
    rw [hstart, hlast]
    simp only [if_true, hdropend]
    rw [if_neg (by simp [validOptionalPort])]
    exact hesc
  have hpa : parseAuthority (('[' :: v) ++ [']']) = some (('[' :: v) ++ [']']) := by
    unfold parseAuthority splitAtLastAt
    rw [hat]
    exact hph
  have hhn : hostnameOf (('[' :: v) ++ [']']) = v := by
    have hvcs : ':' ∈ ('[' :: v) ++ [']'] :=
      List.mem_append_left _ (List.mem_cons_of_mem _ hv)
    rcases hli : lastIdx ':' (('[' :: v) ++ [']']) with _ | i
    · exact absurd hli (lastIdx_mem_ne_none ':' _ hvcs)
    rcases lastIdx_spec ':' _ i hli with ⟨hilt, higet⟩
    have hdropi : (('[' :: v) ++ [']']).drop i = ':' :: (('[' :: v) ++ [']']).drop (i + 1) :=
      drop_eq_cons_of_get _ i ':' higet
    have hine : i ≠ ('[' :: v).length := by
      intro he
      rw [he] at higet
      rw [List.get?_append_right (le_refl _)] at higet
      simp at higet
    have hilt2 : i < ('[' :: v).length := by
      have : (('[' :: v) ++ [']']).length = ('[' :: v).length + 1 := by simp
      omega
    have hrb : ']' ∈ (('[' :: v) ++ [']']).drop (i + 1) := by
      have hg : ((('[' :: v) ++ [']']).drop (i + 1)).get? (('[' :: v).length - (i + 1)) =
          some ']' := by
        rw [List.get?_drop]
        rw [show i + 1 + (('[' :: v).length - (i + 1)) = ('[' :: v).length from by omega]
        rw [List.get?_append_right (le_refl _)]
        simp
      exact List.get?_mem hg
    have hvop : validOptionalPort ((('[' :: v) ++ [']']).drop i) = false := by
      rw [hdropi]
      show ((('[' :: v) ++ [']']).drop (i + 1)).all isDigit = false
      apply List.all_eq_false.mpr
      exact ⟨']', hrb, by decide⟩
    unfold hostnameOf
    rw [hli]
    simp only [hvop, Bool.false_eq_true, if_false]
    rw [if_pos ⟨hstart, List.getLast?_concat _⟩]
    show ((('[' :: v) ++ [']']).drop 1).dropLast = v
    rw [show (('[' :: v) ++ [']']).drop 1 = v ++ [']'] from rfl]
    exact List.dropLast_concat
  have hne2 : ('[' :: v) ++ [']'] ≠ [] := by simp
  have hcutN : cutAtChar '#'
      ('h' :: 't' :: 't' :: 'p' :: ':' :: '/' :: '/' :: '[' :: (v ++ [']'])) =
      ('h' :: 't' :: 't' :: 'p' :: ':' :: '/' :: '/' :: '[' :: (v ++ [']']), [], false) := hcut
  have hctlN : hasCtl
      ('h' :: 't' :: 't' :: 'p' :: ':' :: '/' :: '/' :: '[' :: (v ++ [']'])) = false := hctl
  have hfindN : findScheme
      ('h' :: 't' :: 't' :: 'p' :: ':' :: '/' :: '/' :: '[' :: (v ++ [']'])) 0 =
      SchemeRes.schemeLen 4 := hfind
  have hcut2N : cutAtChar '?' ('/' :: '/' :: '[' :: (v ++ [']'])) =
      ('/' :: '/' :: '[' :: (v ++ [']']), [], false) := hcut2
  have htakeN : List.takeWhile (fun x => !decide (x = '/')) ('[' :: (v ++ [']'])) =
      '[' :: (v ++ [']']) := htake
  have hdropwN : List.dropWhile (fun x => !decide (x = '/')) ('[' :: (v ++ [']'])) = [] :=
    hdropw
  have hpaN : parseAuthority ('[' :: (v ++ [']'])) = some ('[' :: (v ++ [']'])) := hpa
  have hhnN : hostnameOf ('[' :: (v ++ [']'])) = v := hhn
  have hne2N : '[' :: (v ++ [']']) ≠ [] := hne2
  unfold goURLHostname
  simp only [show (String.mk ('h' :: 't' :: 't' :: 'p' :: ':' :: '/' :: '/' ::
    (('[' :: v) ++ [']']))).data =
    'h' :: 't' :: 't' :: 'p' :: ':' :: '/' :: '/' :: (('[' :: v) ++ [']']) from rfl]
  simp [hcutN, hctlN, hfindN, hcut2N, htakeN, hdropwN, hpaN, hhnN, hne2N,
    listStartsWith, percentOk]

/-- A string containing "://" contains both a colon and a slash. -/
theorem containsSchemeSep_colon : ∀ cs : List Char,
    containsSchemeSep cs = true → ':' ∈ cs ∧ '/' ∈ cs := by
  intro cs
  induction cs using containsSchemeSep.induct with
  | case1 rest =>
    intro _
    exact ⟨by simp, by simp⟩
  | case2 x rest hg ih =>
    intro h
    rw [containsSchemeSep] at h
    · rcases ih h with ⟨h1, h2⟩
      exact ⟨List.mem_cons_of_mem _ h1, List.mem_cons_of_mem _ h2⟩
    · exact hg
  | case3 =>
    intro h
    exact absurd h (by decide)

/-- Characters present in the list make contains true. -/
theorem contains_true (cs : List Char) (c : Char) (h : c ∈ cs) : cs.contains c = true :=
  List.elem_iff.mpr h

/-- The host character set sits in the printable ASCII range. -/
theorem hostChar_ascii (c : Char)
    (hc : isAlpha c = true ∨ isDigit c = true ∨ c = '-' ∨ c = '.') :
    33 ≤ c.toNat ∧ c.toNat ≤ 126 := by
  rcases hc with h | h | rfl | rfl
  · simp only [isAlpha, isLower, isUpper, decide_eq_true_eq] at h
    rcases h with h | h <;> omega
  · simp only [isDigit, decide_eq_true_eq] at h
    omega
  · decide
  · decide

/-- The IPv6 character set sits in the printable ASCII range. -/
theorem hexColon_ascii (c : Char) (hc : (hexVal c).isSome = true ∨ c = ':') :
    33 ≤ c.toNat ∧ c.toNat ≤ 126 := by
  rcases hc with h | rfl
  · rcases hexChar_class c h with h1 | h1
    · exact hostChar_ascii c (Or.inr (Or.inl h1))
    · exact hostChar_ascii c (Or.inl h1)
  · decide

/-- Printable ASCII characters are not Go white space. -/
theorem not_space_of_ascii (c : Char) (h1 : 33 ≤ c.toNat) (h2 : c.toNat ≤ 126) :
    isGoSpace c = false := by
  simp only [isGoSpace, decide_eq_false_iff_not]
  intro hp
  rcases hp with rfl | rfl | rfl | h3 | h3 | rfl | h3 | h3 | h3 | h3 | h3 | h3 | h3 | h3 | h3
  · exact absurd h1 (by decide)
  · exact absurd h1 (by decide)
  · exact absurd h1 (by decide)
  · omega
  · omega
  · exact absurd h1 (by decide)
  all_goals omega

/-- Lowercase letters, digits, hyphen and dot are never uppercase. -/
theorem not_upper_of_lower (c : Char)
    (hc : isLower c = true ∨ isDigit c = true ∨ c = '-' ∨ c = '.') :
    isUpper c = false := by
  simp only [isUpper, decide_eq_false_iff_not]
  rcases hc with h | h | rfl | rfl
  · simp only [isLower, decide_eq_true_eq] at h
    omega
  · simp only [isDigit, decide_eq_true_eq] at h
    omega
  · decide
  · decide

/-- goToLower is the identity without uppercase characters. -/
theorem goToLower_eq_self (cs : List Char) (h : ∀ c ∈ cs, isUpper c = false) :
    goToLower cs = cs := by
  unfold goToLower
  rw [show cs = List.map id cs from (List.map_id cs).symm]
  rw [List.map_map]
  apply List.map_congr_left
  intro c hc
  simp only [Function.comp_apply, id_eq, goToLowerChar]
  rw [if_neg (by rw [h c hc]; simp)]

/-- Lowercasing never produces an uppercase character. -/
theorem goToLowerChar_not_upper (c : Char) : isUpper (goToLowerChar c) = false := by
  unfold goToLowerChar
  split
  · rename_i hu
    simp only [isUpper, decide_eq_true_eq] at hu
    have hv : Nat.isValidChar (c.toNat + 32) := Or.inl (by omega)
    have htn : (Char.ofNat (c.toNat + 32)).toNat = c.toNat + 32 := by
      unfold Char.ofNat
      rw [dif_pos hv]
      rfl
    simp only [isUpper, decide_eq_false_iff_not, htn]
    omega
  · rename_i hu
    simpa using hu

/-- Members of a dot-trimmed list are members of the original. -/
theorem mem_trimOneTrailingDot (cs : List Char) (c : Char)
    (h : c ∈ trimOneTrailingDot cs) : c ∈ cs := by
  unfold trimOneTrailingDot at h
  split at h
  · exact List.Sublist.mem h (List.dropLast_sublist cs)
  · exact h

/-- Members of an IDNA-valid host are in the ASCII host character set. -/
theorem idnaOk_mem (host : List Char) (h : idnaOk host = true) :
    ∀ c ∈ host, isAlpha c = true ∨ isDigit c = true ∨ c = '-' ∨ c = '.' := by
  intro c hc
  simp only [idnaOk, Bool.and_eq_true, decide_eq_true_eq] at h
  have := List.all_eq_true.mp h.1 c hc
  simpa [idnaCharOk] using this

/-- Alphabetic and not uppercase means lowercase. -/
theorem isLower_of_alpha_not_upper (c : Char) (h1 : isAlpha c = true)
    (h2 : isUpper c = false) : isLower c = true := by
  simp only [isAlpha, decide_eq_true_eq] at h1
  rcases h1 with h | h
  · exact h
  · rw [h2] at h
    exact absurd h (by decide)

/-- The printed IP form is never empty. -/
theorem ipString_ne_nil (g : List Nat) (hlen : g.length = 8) : (ipString g).data ≠ [] := by
  unfold ipString
  split
  · show (v4String _ _ _ _).data ≠ []
    show decChars _ ++ '.' :: decChars _ ++ '.' :: decChars _ ++ '.' :: decChars _ ≠ []
    simp [decChars_ne_nil]
  · show (v6String g).data ≠ []
    rcases hbr : bestRun g with _ | ⟨i, l⟩
    · have hv : (v6String g).data = glueGroups g := by rw [v6String, hbr]
      rw [hv]
      rcases hg : g with _ | ⟨g0, gs⟩
      · rw [hg] at hlen; simp at hlen
      rcases glueGroups_cons_shape g0 gs with ⟨c2, rest2, hshape, _, _⟩
      rw [hshape]
      simp
    · have hv : (v6String g).data =
          glueGroups (g.take i) ++ ':' :: ':' :: glueGroups (g.drop (i + l)) := by
        rw [v6String, hbr]
      rw [hv]
      intro he
      rcases List.append_eq_nil.mp he with ⟨_, h2⟩
      exact List.noConfusion h2

/-- Characters of the printed IP form: no bracket, and in the v6 case the
character set of hex digits and colons. -/
theorem ipString_chars (g : List Nat) :
    ∀ ch ∈ (ipString g).data, (isDigit ch = true ∨ ch = '.') ∨
      ((hexVal ch).isSome = true ∨ ch = ':') := by
  intro ch hch
  unfold ipString at hch
  split at hch
  · rcases v4String_chars _ _ _ _ ch hch with h | h
    · exact Or.inl (Or.inl h)
    · exact Or.inl (Or.inr h)
  · exact Or.inr (v6String_chars g ch hch)

/-- The first '.' or ':' of the printed IPv6 form is a colon. -/
theorem firstSpecial_v6String (g : List Nat) (hlen : g.length = 8) :
    firstSpecial (v6String g).data = some ':' := by
  rcases hbr : bestRun g with _ | ⟨i, l⟩
  · have hv : (v6String g).data = glueGroups g := by rw [v6String, hbr]
    rw [hv]
    rcases hg : g with _ | ⟨g0, gs⟩; · rw [hg] at hlen; simp at hlen
    rcases hgs : gs with _ | ⟨g1, gs'⟩
    · rw [hg, hgs] at hlen; simp at hlen
    rw [show glueGroups (g0 :: g1 :: gs') = hexChars g0 ++ ':' :: glueGroups (g1 :: gs')
      from rfl]
    exact firstSpecial_append _ _ _ (hexChars_not_special g0) (Or.inr rfl)
  · have hvd : (v6String g).data =
        glueGroups (g.take i) ++ ':' :: ':' :: glueGroups (g.drop (i + l)) := by
      rw [v6String, hbr]
    rw [hvd]
    rcases hti : g.take i with _ | ⟨t0, ts⟩
    · simp [firstSpecial]
    rcases glueGroups_colon_shift t0 ts (':' :: glueGroups (g.drop (i + l))) with ⟨B, hB⟩
    rw [hB]
    exact firstSpecial_append _ _ _ (hexChars_not_special t0) (Or.inr rfl)

/-- The printed IPv6 form contains a colon. -/
theorem v6String_colon_mem (g : List Nat) (hlen : g.length = 8) :
    ':' ∈ (v6String g).data :=
  (firstSpecial_mem _ _ (firstSpecial_v6String g hlen)).1

/-- Labels made of digits pass the Lookup-profile hyphen checks. -/
theorem idnaLabelOk_of_digits (l : List Char) (h : ∀ c ∈ l, isDigit c = true) :
    idnaLabelOk l = true := by
  rcases hl : l with _ | ⟨c, rest⟩
  · rfl
  · rw [← hl]
    have hc : c ∈ l := hl ▸ List.mem_cons_self c rest
    rw [hl]
    simp only [idnaLabelOk, Bool.and_eq_true, decide_eq_true_eq]
    refine ⟨?_, ?_, ?_⟩
    · rintro ⟨h2, -⟩
      have hm : '-' ∈ c :: rest := List.get?_mem h2
      have := h '-' (hl ▸ hm)
      exact absurd this (by decide)
    · intro he
      exact absurd (he ▸ h c hc) (by decide)
    · intro he
      have hm : '-' ∈ (c :: rest) :=
        List.mem_of_mem_getLast? (by rw [he]; rfl)
      exact absurd (h '-' (hl ▸ hm)) (by decide)

/-- The trimmed-space fixpoint of a host-set character list. -/
theorem goTrimSpace_host (cs : List Char)
    (hch : ∀ c ∈ cs, isAlpha c = true ∨ isDigit c = true ∨ c = '-' ∨ c = '.') :
    goTrimSpace cs = cs :=
  goTrimSpace_eq_self cs fun c hc => by
    rcases hostChar_ascii c (hch c hc) with ⟨h1, h2⟩
    exact not_space_of_ascii c h1 h2

/-- Normalisation is a fixpoint on nonempty lowercase IDNA-valid hosts without
a trailing dot. -/
theorem normaliseResource_fix_domain (h : List Char) (hne : h ≠ [])
    (hch : ∀ c ∈ h, isLower c = true ∨ isDigit c = true ∨ c = '-' ∨ c = '.')
    (hidna : idnaOk h = true) (hdot : h.getLast? ≠ some '.') :
    normaliseResource (String.mk h) = some (String.mk h) := by
  have hchAl : ∀ c ∈ h, isAlpha c = true ∨ isDigit c = true ∨ c = '-' ∨ c = '.' := by
    intro c hc
    rcases hch c hc with h1 | h1 | h1 | h1
    · exact Or.inl (by simp [isAlpha, h1])
    · exact Or.inr (Or.inl h1)
    · exact Or.inr (Or.inr (Or.inl h1))
    · exact Or.inr (Or.inr (Or.inr h1))
  have htrim : goTrimSpace h = h := goTrimSpace_host h hchAl
  have hstar : listStartsWith ['*', '.'] h = false := by
    rcases hh : h with _ | ⟨c0, rest⟩
    · rfl
    · have hm : c0 ∈ h := hh ▸ List.mem_cons_self c0 rest
      have hc0 : c0 ≠ '*' :=
        hostChar_ne c0 (hchAl c0 hm) '*' (by decide) (by decide) (by decide) (by decide)
      simp only [listStartsWith, decide_eq_false_iff_not]
      rintro ⟨he, -⟩
      exact hc0 he.symm
  have hcolon : ':' ∉ h := fun hm =>
    hostChar_ne ':' (hchAl ':' hm) ':' (by decide) (by decide) (by decide) (by decide) rfl
  have hcontains : h.contains ':' = false :=
    contains_false h ':' fun x hx he => hcolon (he ▸ hx)
  have hsep : containsSchemeSep h = false := by
    cases hcs : containsSchemeSep h with
    | false => rfl
    | true => exact absurd (containsSchemeSep_colon h hcs).1 hcolon
  have hurl := goURLHostname_http h hne hchAl
  have hdm : (String.mk h).data = h := rfl
  rcases hpip : parseIP (String.mk h) with _ | ip
  · have hlow : goToLower h = h :=
      goToLower_eq_self h fun c hc => not_upper_of_lower c (hch c hc)
    have htd : trimOneTrailingDot h = h := by
      unfold trimOneTrailingDot
      rw [if_neg hdot]
    unfold normaliseResource
    simp only [hdm]
    simp [htrim, hne, hstar, hcontains, hsep, hurl, hpip, hlow, htd, hidna]
  · have hpip0 := hpip
    unfold parseIP at hpip
    rw [hdm] at hpip
    split at hpip
    · exact absurd hpip (by simp)
    · split at hpip
      · simp only [Option.map_eq_some'] at hpip
        rcases hpip with ⟨⟨a, b, c, d⟩, hab, hip⟩
        rcases parseIPv4Bytes_bounds _ _ _ _ _ hab with ⟨ha, hb2, hc2, hd2⟩
        have hvdata := v4String_of_parse h a b c d hab
        subst hip
        have hto4 : ipTo4 [0, 0, 0, 0, 0, 0xffff, a * 256 + b, c * 256 + d] = true := by
          simp [ipTo4]
        have hipstr : ipString [0, 0, 0, 0, 0, 0xffff, a * 256 + b, c * 256 + d] =
            String.mk h := by
          rw [ipString, if_pos hto4]
          show v4String ((a * 256 + b) / 256) ((a * 256 + b) % 256)
            ((c * 256 + d) / 256) ((c * 256 + d) % 256) = _
          rw [show (a * 256 + b) / 256 = a from by omega,
            show (a * 256 + b) % 256 = b from by omega,
            show (c * 256 + d) / 256 = c from by omega,
            show (c * 256 + d) % 256 = d from by omega]
          show String.mk (v4String a b c d).data = String.mk h
          rw [hvdata]
        have hpip1 : parseIP (String.mk h) =
            some [0, 0, 0, 0, 0, 0xffff, a * 256 + b, c * 256 + d] := by rw [hpip0]
        unfold normaliseResource
        simp only [hdm]
        simp [htrim, hne, hstar, hcolon, hcontains, hsep, hurl, hpip1, hto4, hipstr]
      · rename_i heq
        rcases firstSpecial_mem h ':' heq with ⟨hm, _⟩
        exact absurd hm hcolon
      · exact absurd hpip (by simp)

/-- The canonical dotted-quad string ends in a digit. -/
theorem v4String_getLast (a b c d : Nat) :
    ∃ x, (v4String a b c d).data.getLast? = some x ∧ isDigit x = true := by
  rw [show (v4String a b c d).data =
    (decChars a ++ '.' :: decChars b ++ '.' :: decChars c) ++ '.' :: decChars d from rfl]
  rw [List.getLast?_append]
  rw [show ('.' :: decChars d : List Char) = ['.'] ++ decChars d from rfl,
    List.getLast?_append]
  rcases hgl : (decChars d).getLast? with _ | x
  · exact absurd (List.getLast?_eq_none_iff.mp hgl) (decChars_ne_nil d)
  · have hm : x ∈ decChars d := List.mem_of_mem_getLast? (by rw [hgl]; rfl)
    rcases decChars_chars d x hm with ⟨v, hv, rfl⟩
    exact ⟨decDigit v, rfl, decDigit_isDigit v hv⟩

/-- Normalisation is a fixpoint on canonically printed IP addresses. -/
theorem normaliseResource_ipString (g : List Nat) (hlen : g.length = 8)
    (hb : ∀ x ∈ g, x ≤ 0xffff) :
    normaliseResource (ipString g) = some (ipString g) := by
  by_cases hT : ipTo4 g = true
  · have hips : ipString g = v4String (g.getD 6 0 / 256) (g.getD 6 0 % 256)
        (g.getD 7 0 / 256) (g.getD 7 0 % 256) := by rw [ipString, if_pos hT]
    set a := g.getD 6 0 / 256 with hadef
    set b := g.getD 6 0 % 256 with hbdef
    set c := g.getD 7 0 / 256 with hcdef
    set d := g.getD 7 0 % 256 with hddef
    have hne4 : (v4String a b c d).data ≠ [] := by
      rw [show (v4String a b c d).data =
        (decChars a ++ '.' :: decChars b ++ '.' :: decChars c) ++ '.' :: decChars d from rfl]
      simp
    have hch4 : ∀ x ∈ (v4String a b c d).data,
        isLower x = true ∨ isDigit x = true ∨ x = '-' ∨ x = '.' := by
      intro x hx
      rcases v4String_chars a b c d x hx with h1 | h1
      · exact Or.inr (Or.inl h1)
      · exact Or.inr (Or.inr (Or.inr h1))
    have hidna : idnaOk (v4String a b c d).data = true := by
      simp only [idnaOk, Bool.and_eq_true, decide_eq_true_eq]
      constructor
      · apply List.all_eq_true.mpr
        intro x hx
        rcases v4String_chars a b c d x hx with h1 | h1
        · simp [idnaCharOk, h1]
        · simp [idnaCharOk, h1]
      · apply List.all_eq_true.mpr
        intro l hl
        rw [show (v4String a b c d).data =
          decChars a ++ '.' :: decChars b ++ '.' :: decChars c ++ '.' :: decChars d
          from rfl, splitOnChar_v4] at hl
        simp only [List.mem_cons, List.not_mem_nil, or_false] at hl
        rcases hl with rfl | rfl | rfl | rfl <;>
          refine idnaLabelOk_of_digits _ fun x hx => ?_ <;>
          · rcases decChars_chars _ x hx with ⟨v, hv, rfl⟩
            exact decDigit_isDigit v hv
    have hdot : (v4String a b c d).data.getLast? ≠ some '.' := by
      rcases v4String_getLast a b c d with ⟨x, hx, hdig⟩
      rw [hx]
      intro he
      injection he with he2
      rw [he2] at hdig
      exact absurd hdig (by decide)
    have happ := normaliseResource_fix_domain (v4String a b c d).data hne4 hch4 hidna hdot
    rw [hips]
    exact happ
  · have hveq : ipString g = v6String g := by rw [ipString, if_neg hT]
    have hchars6 := v6String_chars g
    have hcolon := v6String_colon_mem g hlen
    have hne6 : (v6String g).data ≠ [] := by
      have := ipString_ne_nil g hlen
      rwa [hveq] at this
    have htrim : goTrimSpace (v6String g).data = (v6String g).data :=
      goTrimSpace_eq_self _ fun x hx => by
        rcases hexColon_ascii x (hchars6 x hx) with ⟨h1, h2⟩
        exact not_space_of_ascii x h1 h2
    have hnm : ∀ d : Char, hexVal d = none → d ≠ ':' → d ∉ (v6String g).data := by
      intro d h1 h2 hm
      rcases hchars6 d hm with hx | hx
      · rw [h1] at hx; exact Bool.noConfusion hx
      · exact h2 hx
    have hstar : listStartsWith ['*', '.'] (v6String g).data = false := by
      rcases hh : (v6String g).data with _ | ⟨c0, rest⟩
      · rfl
      · have hm : c0 ∈ (v6String g).data := hh ▸ List.mem_cons_self c0 rest
        have hc0 : c0 ≠ '*' := by
          intro he
          exact hnm '*' (by decide) (by decide) (he ▸ hm)
        simp only [listStartsWith, decide_eq_false_iff_not]
        rintro ⟨he, -⟩
        exact hc0 he.symm
    have hbrn : '[' ∉ (v6String g).data := hnm '[' (by decide) (by decide)
    have hipv : parseIP (String.mk (v6String g).data) = some g := parseIP_v6String g hlen hb
    have hslash : '/' ∉ '[' :: ((v6String g).data ++ [']']) := by
      intro hm
      rcases List.mem_cons.mp hm with he | hm
      · exact absurd he (by decide)
      · rcases List.mem_append.mp hm with hm | hm
        · exact hnm '/' (by decide) (by decide) hm
        · simp at hm
    have hsep2 : containsSchemeSep ('[' :: ((v6String g).data ++ [']'])) = false := by
      cases hcs : containsSchemeSep ('[' :: ((v6String g).data ++ [']'])) with
      | false => rfl
      | true => exact absurd (containsSchemeSep_colon _ hcs).2 hslash
    have hurl : goURLHostname (String.mk ('h' :: 't' :: 't' :: 'p' :: ':' :: '/' :: '/' ::
        '[' :: ((v6String g).data ++ [']']))) = some (String.mk (v6String g).data) :=
      goURLHostname_http_bracket (v6String g).data hchars6 hcolon
    unfold normaliseResource
    rw [hveq]
    simp [htrim, hne6, hstar, contains_true _ _ hcolon, hcolon, hbrn, hipv, hT,
      hsep2, hurl, hveq]
/-- Shape of successful normaliseResource outputs: a canonically printed IP
with eight bounded groups, or a nonempty lowercase IDNA-valid host. -/
theorem normaliseResource_out (raw v : String) (h : normaliseResource raw = some v) :
    (∃ g, g.length = 8 ∧ (∀ x ∈ g, x ≤ 0xffff) ∧ v = ipString g) ∨
    (v.data ≠ [] ∧ idnaOk v.data = true ∧
      ∀ c ∈ v.data, isLower c = true ∨ isDigit c = true ∨ c = '-' ∨ c = '.') := by
  unfold normaliseResource at h
  dsimp only [] at h
  split at h
  · exact absurd h (by simp)
  · split at h
    · exact absurd h (by simp)
    · rename_i host hurl
      split at h
      · rename_i ip hip
        simp only [Option.some.injEq] at h
        subst h
        rcases parseIP_shape host ip hip with ⟨h1, h2⟩
        exact Or.inl ⟨ip, h1, h2, rfl⟩
      · rename_i hipn
        split at h
        · exact absurd h (by simp)
        · split at h
          · rename_i hne hidna
            simp only [Option.some.injEq] at h
            subst h
            refine Or.inr ⟨by simpa using hne, hidna, ?_⟩
            intro c hc
            have hc1 : c ∈ trimOneTrailingDot (goToLower host.data) := hc
            have hc2 : c ∈ goToLower host.data := mem_trimOneTrailingDot _ c hc1
            obtain ⟨d, hd, hcd⟩ := List.mem_map.mp (by simpa [goToLower] using hc2)
            have hnu : isUpper c = false := hcd ▸ goToLowerChar_not_upper d
            rcases idnaOk_mem _ hidna c hc1 with h1 | h1 | h1 | h1
            · exact Or.inl (isLower_of_alpha_not_upper c h1 hnu)
            · exact Or.inr (Or.inl h1)
            · exact Or.inr (Or.inr (Or.inl h1))
            · exact Or.inr (Or.inr (Or.inr h1))
          · exact absurd h (by simp)

/-- Shape of successful normaliseClassified outputs, with the kind tied to the
address family. -/
theorem normaliseClassified_out (raw v : String) (k : ResourceKind)
    (h : normaliseClassified raw = some (v, k)) :
    (k = ResourceKind.Domain → v.data ≠ [] ∧ idnaOk v.data = true ∧
      ∀ c ∈ v.data, isLower c = true ∨ isDigit c = true ∨ c = '-' ∨ c = '.') ∧
    (k ≠ ResourceKind.Domain → ∃ g, g.length = 8 ∧ (∀ x ∈ g, x ≤ 0xffff) ∧
      v = ipString g ∧ (k = ResourceKind.IPv4 ↔ ipTo4 g = true)) := by
  unfold normaliseClassified at h
  dsimp only [] at h
  split at h
  · exact absurd h (by simp)
  · split at h
    · exact absurd h (by simp)
    · rename_i host hurl
      split at h
      · rename_i ip hip
        simp only [Option.some.injEq, Prod.mk.injEq] at h
        rcases h with ⟨hv, hk⟩
        subst hv
        rcases parseIP_shape host ip hip with ⟨h1, h2⟩
        constructor
        · intro hkd
          rw [← hk] at hkd
          split at hkd <;> exact ResourceKind.noConfusion hkd
        · intro _
          refine ⟨ip, h1, h2, rfl, ?_⟩
          rw [← hk]
          constructor
          · intro he
            split at he
            · rename_i hcond; exact hcond
            · exact ResourceKind.noConfusion he
          · intro ht
            rw [if_pos ht]
      · rename_i hipn
        split at h
        · exact absurd h (by simp)
        · split at h
          · rename_i hne hidna
            simp only [Option.some.injEq, Prod.mk.injEq] at h
            rcases h with ⟨hv, hk⟩
            subst hv
            constructor
            · intro _
              refine ⟨by simpa using hne, hidna, ?_⟩
              intro c hc
              have hc1 : c ∈ trimOneTrailingDot (goToLower host.data) := hc
              have hc2 : c ∈ goToLower host.data := mem_trimOneTrailingDot _ c hc1
              obtain ⟨d, hd, hcd⟩ := List.mem_map.mp (by simpa [goToLower] using hc2)
              have hnu : isUpper c = false := hcd ▸ goToLowerChar_not_upper d
              rcases idnaOk_mem _ hidna c hc1 with h1 | h1 | h1 | h1
              · exact Or.inl (isLower_of_alpha_not_upper c h1 hnu)
              · exact Or.inr (Or.inl h1)
              · exact Or.inr (Or.inr (Or.inl h1))
              · exact Or.inr (Or.inr (Or.inr h1))
            · intro hkd
              exact absurd hk.symm hkd
          · exact absurd h (by simp)

/-- getResourceType on a canonically printed IP returns its family. -/
theorem getResourceType_ipString (g : List Nat) (hlen : g.length = 8)
    (hb : ∀ x ∈ g, x ≤ 0xffff) :
    getResourceType (ipString g) = if ipTo4 g = true then "IPv4" else "IPv6" := by
  unfold getResourceType
  rw [parseIP_ipString g hlen hb]
set_option maxRecDepth 100000 in
set_option maxHeartbeats 1000000 in
/-- Claim C5: normalize maps the specification's example inputs to the stated
results - " https://Example.COM/path " to Domain "example.com",
"*.cloudrun.regr.creepycrawly.io." to Domain "cloudrun.regr.creepycrawly.io",
"2001:db8::1" and "[2001:db8::1]" to IPv6 "2001:db8::1", and "not a domain",
"" and "://" to no result. -/
theorem claim_C5_normalize_examples :
    normaliseClassified " https://Example.COM/path " =
      some ("example.com", ResourceKind.Domain) ∧
    normaliseClassified "*.cloudrun.regr.creepycrawly.io." =
      some ("cloudrun.regr.creepycrawly.io", ResourceKind.Domain) ∧
    normaliseClassified "2001:db8::1" = some ("2001:db8::1", ResourceKind.IPv6) ∧
    normaliseClassified "[2001:db8::1]" = some ("2001:db8::1", ResourceKind.IPv6) ∧
    normaliseClassified "not a domain" = none ∧
    normaliseClassified "" = none ∧
    normaliseClassified "://" = none := by
  refine ⟨by decide, by decide, by decide, by decide, by decide, by decide, by decide⟩

set_option maxRecDepth 100000 in
/-- Claim C8, counterexample: the input "example.com.." normalizes to the
Domain value "example.com.", which still carries a trailing dot, refuting the
no-trailing-dot invariant as stated. -/
theorem claim_C8_counterexample :
    normaliseClassified "example.com.." = some ("example.com.", ResourceKind.Domain) ∧
    ("example.com." : String).data.getLast? = some '.' := by
  refine ⟨by decide, by decide⟩

/-- Claim C8 (amended): every successful normalize result is non-empty; a
Domain value is lowercase and IDNA-valid (a trailing dot may remain, since only
one is stripped); an IPv4/IPv6 value is the canonical IP.String form of its
eight parsed groups, bracket-free, with the kind matching the address family. -/
theorem claim_C8_normalized_invariants (raw v : String) (k : ResourceKind)
    (h : normaliseClassified raw = some (v, k)) :
    v.data ≠ [] ∧
    (k = ResourceKind.Domain → goToLower v.data = v.data ∧ idnaOk v.data = true) ∧
    (k ≠ ResourceKind.Domain → ∃ g, parseIP v = some g ∧ v = ipString g ∧
      (k = ResourceKind.IPv4 ↔ ipTo4 g = true) ∧ '[' ∉ v.data) := by
  rcases normaliseClassified_out raw v k h with ⟨hdom, hip⟩
  by_cases hk : k = ResourceKind.Domain
  · rcases hdom hk with ⟨hne, hidna, hch⟩
    refine ⟨hne, fun _ => ⟨?_, hidna⟩, fun hkk => absurd hk hkk⟩
    exact goToLower_eq_self _ fun c hc => not_upper_of_lower c (hch c hc)
  · rcases hip hk with ⟨g, h1, h2, rfl, hkk⟩
    refine ⟨ipString_ne_nil g h1, fun hkd => absurd hkd hk,
      fun _ => ⟨g, parseIP_ipString g h1 h2, rfl, hkk, ?_⟩⟩
    intro hm
    rcases ipString_chars g '[' hm with (h3 | h3) | (h3 | h3)
    · exact absurd h3 (by decide)
    · exact absurd h3 (by decide)
    · exact absurd h3 (by decide)
    · exact absurd h3 (by decide)

set_option maxRecDepth 100000 in
/-- Claim C8, witness: the amended invariants evaluated on the Domain output
of "Example.COM" and discharged at that concrete input. -/
theorem claim_C8_witness :
    ("example.com" : String).data ≠ [] ∧
    (ResourceKind.Domain = ResourceKind.Domain →
      goToLower ("example.com" : String).data = ("example.com" : String).data ∧
      idnaOk ("example.com" : String).data = true) ∧
    (ResourceKind.Domain ≠ ResourceKind.Domain →
      ∃ g, parseIP "example.com" = some g ∧ ("example.com" : String) = ipString g ∧
        (ResourceKind.Domain = ResourceKind.IPv4 ↔ ipTo4 g = true) ∧
        '[' ∉ ("example.com" : String).data) :=
  claim_C8_normalized_invariants "Example.COM" "example.com" ResourceKind.Domain (by decide)

set_option maxRecDepth 100000 in
/-- Claim C9, counterexample: "1.2.3.4." normalizes to the value "1.2.3.4"
classified Domain (the URL hostname "1.2.3.4." does not parse as an IP), but
re-deriving the type from the value at create time yields "IPv4". -/
theorem claim_C9_counterexample :
    normaliseClassified "1.2.3.4." = some ("1.2.3.4", ResourceKind.Domain) ∧
    getResourceType "1.2.3.4" = "IPv4" := by
  refine ⟨by decide, by decide⟩

/-- Claim C9 (amended): for IP-classified values the type re-derived at create
time equals the kind determined during normalization; for Domain-classified
values the same holds whenever the value does not itself parse as an IP
address (a Domain value that parses as an IP is re-typed as that family). -/
theorem claim_C9_type_agreement (raw v : String) (k : ResourceKind)
    (h : normaliseClassified raw = some (v, k)) :
    (k ≠ ResourceKind.Domain → getResourceType v = kindString k) ∧
    (k = ResourceKind.Domain → parseIP v = none → getResourceType v = "Domain") := by
  rcases normaliseClassified_out raw v k h with ⟨hdom, hip⟩
  constructor
  · intro hk
    rcases hip hk with ⟨g, h1, h2, rfl, hkk⟩
    unfold getResourceType
    rw [parseIP_ipString g h1 h2]
    rcases k with _ | _ | _
    · exact absurd rfl hk
    · show (if ipTo4 g = true then "IPv4" else "IPv6") = kindString ResourceKind.IPv4
      rw [if_pos (hkk.mp rfl)]
      rfl
    · show (if ipTo4 g = true then "IPv4" else "IPv6") = kindString ResourceKind.IPv6
      rw [if_neg fun ht => ResourceKind.noConfusion (hkk.mpr ht)]
      rfl
  · intro _ hnone
    unfold getResourceType
    rw [hnone]

set_option maxRecDepth 100000 in
/-- Claim C9, witness: the agreement evaluated on the IPv6 output of
"2001:db8::1" and discharged at that concrete input. -/
theorem claim_C9_witness :
    (ResourceKind.IPv6 ≠ ResourceKind.Domain →
      getResourceType "2001:db8::1" = kindString ResourceKind.IPv6) ∧
    (ResourceKind.IPv6 = ResourceKind.Domain → parseIP "2001:db8::1" = none →
      getResourceType "2001:db8::1" = "Domain") :=
  claim_C9_type_agreement "2001:db8::1" "2001:db8::1" ResourceKind.IPv6 (by decide)

set_option maxRecDepth 100000 in
/-- Claim C10, counterexample: normalization is not idempotent on all of its
outputs - "example.com.." normalizes to "example.com.", which normalizes
further to "example.com". -/
theorem claim_C10_counterexample :
    normaliseResource "example.com.." = some "example.com." ∧
    normaliseResource "example.com." = some "example.com" ∧
    ("example.com" : String) ≠ "example.com." := by
  refine ⟨by decide, by decide, by decide⟩

/-- Claim C10 (amended): normalization is idempotent on every output that does
not end in a dot - for raw inputs whose normalized value v has no trailing
dot, normalizing v returns v unchanged. -/
theorem claim_C10_normalise_idempotent (raw v : String)
    (h : normaliseResource raw = some v) (hdot : v.data.getLast? ≠ some '.') :
    normaliseResource v = some v := by
  rcases normaliseResource_out raw v h with ⟨g, h1, h2, rfl⟩ | ⟨hne, hidna, hch⟩
  · exact normaliseResource_ipString g h1 h2
  · exact normaliseResource_fix_domain v.data hne hch hidna hdot

set_option maxRecDepth 100000 in
/-- Claim C10, witness: idempotence evaluated on the output of
" https://Example.COM/path " and discharged at that concrete input. -/
theorem claim_C10_witness : normaliseResource "example.com" = some "example.com" :=
  claim_C10_normalise_idempotent " https://Example.COM/path " "example.com"
    (by decide) (by decide)
end ASMConnector
